import Mathlib

/-!
Verification of the RPNI + error-correcting-Earley core of the repairer.

The development shallowly embeds the Python sources:
  * `Rpni` embeds `lstar/rpni.py` (PTA, DFA, blue-fringe RPNI learner);
  * `EcRuntime` embeds `lstar/ec_runtime.py` (covering grammar,
    penalty-aware nullability, error-correcting Earley column operations,
    projection of covering parse trees back to the base grammar);
  * `RepairerEc` embeds the penalty-cap configuration of
    `lstar/repairer_lstar_ec.py::earley_correct`.

Python strings are embedded as `List Char`, dictionaries as
insertion-ordered association lists, and sets of small integers as
ascending lists (CPython's iteration order for small-int sets).
Loops whose termination is not structural carry an explicit fuel
argument; `none` marks fuel exhaustion (i.e. divergence of the source).
-/

abbrev Str := List Char

/-- Association-list lookup: first binding wins (Python `dict.get`). -/
def alookup {α β : Type} [DecidableEq α] (k : α) : List (α × β) → Option β
  | [] => none
  | (a, b) :: rest => if a = k then some b else alookup k rest

/-- Association-list assignment (Python `d[k] = v`): replaces the first
binding in place, else appends, preserving insertion order. -/
def aset {α β : Type} [DecidableEq α] (k : α) (v : β) : List (α × β) → List (α × β)
  | [] => [(k, v)]
  | (a, b) :: rest => if a = k then (a, v) :: rest else (a, b) :: aset k v rest

/-- Model of Python `set.add` on an insertion-ordered set. -/
def setAdd {α : Type} [DecidableEq α] (s : List α) (a : α) : List α :=
  if a ∈ s then s else s ++ [a]

namespace Rpni

/-- A PTA node (`PTA.Node` in rpni.py): accept flag, insertion-ordered
outgoing edges, parent id and incoming symbol. -/
structure Node where
  accept : Bool
  next : List (Char × Nat)
  parent : Int
  via : Str
deriving Repr, DecidableEq

instance : Inhabited Node := ⟨⟨false, [], -1, []⟩⟩

/-- The prefix-tree acceptor (`PTA` in rpni.py): node 0 is the root. -/
structure PTA where
  nodes : List Node
  alphabet : List Char
deriving Repr, DecidableEq

/-- The fresh PTA (`PTA.__init__`). -/
def PTA.empty : PTA := ⟨[⟨false, [], -1, []⟩], []⟩

/-- The walking loop of `PTA.add_path`: follow existing edges, create
missing nodes, and accumulate the alphabet. -/
def addPathGo (nodes : List Node) (alph : List Char) (s : Nat) : Str → List Node × List Char × Nat
  | [] => (nodes, alph, s)
  | a :: w =>
    let alph' := setAdd alph a
    match alookup a (nodes.getD s default).next with
    | some t => addPathGo nodes alph' t w
    | none =>
      let nid := nodes.length
      let nodes' := nodes.set s { nodes.getD s default with next := aset a nid (nodes.getD s default).next }
      addPathGo (nodes' ++ [{ accept := false, next := [], parent := (s : Int), via := [a] }]) alph' nid w

/-- `PTA.add_path(w, is_positive)`: returns the updated PTA and the id of
the terminal node. -/
def PTA.add_path (p : PTA) (w : Str) (isPos : Bool) : PTA × Nat :=
  let r := addPathGo p.nodes p.alphabet 0 w
  let nodes := if isPos then r.1.set r.2.2 { r.1.getD r.2.2 default with accept := true } else r.1
  (⟨nodes, r.2.1⟩, r.2.2)

/-- The DFA of rpni.py: integer states, partial transition maps. -/
structure DFA where
  start : Nat
  delta : List (List (Char × Nat))
  accept : List Bool
  alphabet : List Char
deriving Repr, DecidableEq

/-- `DFA.accepts`: simulate; a missing transition returns `False`. -/
def acceptsGo (d : DFA) : Nat → Str → Bool
  | q, [] => d.accept.getD q false
  | q, a :: w =>
    match alookup a (d.delta.getD q []) with
    | none => false
    | some q' => acceptsGo d q' w

def DFA.accepts (d : DFA) (w : Str) : Bool := acceptsGo d d.start w

/-- `complete(dfa)`: add a sink state for missing edges over the known
alphabet (no-op when the alphabet is empty or no edge is missing). -/
def complete (d : DFA) : DFA :=
  let n := d.delta.length
  if d.alphabet = [] then d
  else if (List.range n).all (fun s => d.alphabet.all (fun a => (alookup a (d.delta.getD s [])).isSome)) then d
  else
    let sink := n
    let sinkRow := d.alphabet.map (fun a => (a, sink))
    let delta := d.delta.map (fun row => row ++ (d.alphabet.filter (fun a => (alookup a row).isNone)).map (fun a => (a, sink)))
    { start := d.start, delta := delta ++ [sinkRow], accept := d.accept ++ [false], alphabet := d.alphabet }

/-- `RPNI.__init__`: build the PTA from positives, then extend its
alphabet with the symbols of the negatives. -/
def buildPTA (pos negs : List Str) : PTA :=
  let p := pos.foldl (fun p w => (p.add_path w true).1) PTA.empty
  { p with alphabet := negs.foldl (fun al w => w.foldl setAdd al) p.alphabet }

/-- `RPNI._find`: chase representative pointers (fuel-bounded embedding of
the source's `while rep[r] != r` loop). -/
def findRep (rep : List Nat) : Nat → Nat → Nat
  | 0, r => r
  | f + 1, r =>
    let r' := rep.getD r r
    if r' = r then r else findRep rep f r'

def find (rep : List Nat) (v : Nat) : Nat := findRep rep rep.length v

/-- Inner loop of `_materialize`'s canonicalisation:
`while canon[v] != canon[canon[v]]: canon[v] = canon[canon[v]]`. -/
def canonAt (v : Nat) : Nat → List Nat → List Nat
  | 0, canon => canon
  | f + 1, canon =>
    let cv := canon.getD v v
    let ccv := canon.getD cv cv
    if cv = ccv then canon else canonAt v f (canon.set v ccv)

/-- `RPNI._materialize(rep, do_complete)`: quotient the PTA by the
partition `rep`, remapping class roots to dense ids in discovery order;
transition entries written later overwrite earlier ones. -/
def materialize (pta : PTA) (rep : List Nat) (doComplete : Bool) : DFA :=
  let n := pta.nodes.length
  let canon := (List.range n).foldl (fun c v => canonAt v (n + 1) c) rep
  let idpairs := (List.range n).foldl (fun (acc : List (Nat × Nat)) v =>
      let r := canon.getD v v
      if (alookup r acc).isSome then acc else acc ++ [(r, acc.length)]) []
  let idc := idpairs.length
  let idOf := fun r => (alookup r idpairs).getD 0
  let accept := (List.range n).foldl (fun acc v =>
      if (pta.nodes.getD v default).accept then acc.set (idOf (canon.getD v v)) true else acc)
      (List.replicate idc false)
  let delta := (List.range n).foldl (fun acc v =>
      let r := idOf (canon.getD v v)
      (pta.nodes.getD v default).next.foldl (fun acc2 au =>
        acc2.set r (aset au.1 (idOf (canon.getD au.2 au.2)) (acc2.getD r []))) acc)
      (List.replicate idc ([] : List (Char × Nat)))
  let dfa : DFA := ⟨idOf (canon.getD 0 0), delta, accept, pta.alphabet⟩
  if doComplete then complete dfa else dfa

/-- `RPNI._consistent_with_negatives`. -/
def consistentNeg (negs : List Str) (d : DFA) : Bool :=
  negs.all (fun w => !(d.accepts w))

/-- Homomorphic-propagation worklist of `_try_merge` (FIFO, fuel-bounded
embedding of the `while Q` loop). -/
def mergeProp (pta : PTA) : Nat → List Nat → List (Nat × Nat) → List Nat
  | 0, rep, _ => rep
  | _, rep, [] => rep
  | f + 1, rep, (x, y) :: q =>
    let step := pta.alphabet.foldl (fun (st : List Nat × List (Nat × Nat)) a =>
      match alookup a (pta.nodes.getD y default).next with
      | none => st
      | some ny =>
        match alookup a (pta.nodes.getD x default).next with
        | none => st
        | some nx =>
          let rx := find st.1 nx
          let ry := find st.1 ny
          if rx = ry then st else (st.1.set ry rx, st.2 ++ [(rx, ry)])) (rep, [])
    mergeProp pta f step.1 (q ++ step.2)

/-- `RPNI._try_merge(rep, qr, qb)`: merge `qb` into `qr` on a copy of the
partition, propagate, materialise, and keep the partition only when every
negative is rejected. -/
def tryMerge (pta : PTA) (negs : List Str) (rep0 : List Nat) (qr qb : Nat) : Option (List Nat) :=
  let rep := mergeProp pta (pta.nodes.length + 1) (rep0.set qb qr) [(qr, qb)]
  if consistentNeg negs (materialize pta rep true) then some rep else none

/-- The BLUE set recomputed at each iteration of `learn`: children of RED
nodes not themselves RED, in ascending node-id order (CPython small-int
set iteration order). -/
def blueOf (pta : PTA) (red : List Nat) : List Nat :=
  (List.range pta.nodes.length).filter (fun v =>
    !(red.contains v) && red.any (fun r => (pta.nodes.getD r default).next.any (fun au => au.2 = v)))

/-- The `for qr in list(RED)` loop of `learn`: first consistent merge wins. -/
def tryReds (pta : PTA) (negs : List Str) (rep : List Nat) (qb : Nat) : List Nat → Option (List Nat)
  | [] => none
  | qr :: rest =>
    match tryMerge pta negs rep qr qb with
    | some r => some r
    | none => tryReds pta negs rep qb rest

/-- Ascending insertion for the RED set. -/
def insertSorted (v : Nat) : List Nat → List Nat
  | [] => [v]
  | x :: xs => if v < x then v :: x :: xs else if v = x then x :: xs else x :: insertSorted v xs

/-- The `while BLUE` loop of `RPNI.learn`, fuel-bounded: each iteration
pops the least BLUE node, tries to merge it into each RED node in order,
otherwise promotes it; BLUE is recomputed from RED afterwards.  `none`
records fuel exhaustion, i.e. the source loops. -/
def learnLoop (pta : PTA) (negs : List Str) : Nat → List Nat → List Nat → Option DFA
  | fuel, rep, red =>
    let blue := blueOf pta red
    if blue.isEmpty then
      let dfa := materialize pta rep true
      some (if consistentNeg negs dfa then dfa else materialize pta (List.range pta.nodes.length) true)
    else
      match fuel with
      | 0 => none
      | f + 1 =>
        let qb := blue.headD 0
        match tryReds pta negs rep qb red with
        | some rep' => learnLoop pta negs f rep' red
        | none => learnLoop pta negs f rep (insertSorted qb red)

/-- `RPNI.learn` seeded as in the source: identity partition, RED = {0}. -/
def learn (pos negs : List Str) (fuel : Nat) : Option DFA :=
  let pta := buildPTA pos negs
  learnLoop pta negs fuel (List.range pta.nodes.length) [0]

/-- Follow transitions from node `s` (used to state properties of the PTA). -/
def reachFrom (nodes : List Node) (s : Nat) : Str → Option Nat
  | [] => some s
  | a :: w =>
    match alookup a (nodes.getD s default).next with
    | some t => reachFrom nodes t w
    | none => none

/-- Number of prefixes of `w` that have no node yet. -/
def missingCountP (nodes : List Node) (s : Nat) (w : Str) : Nat :=
  w.inits.countP (fun q => (reachFrom nodes s q).isNone)

/-- Every transition target is a valid node index. -/
def NodesWF (nodes : List Node) : Prop :=
  ∀ v a t, alookup a ((nodes.getD v default).next) = some t → t < nodes.length

/-- Well-formedness of a PTA: non-empty node list, all edges in range. -/
def PTAWF (p : PTA) : Prop := NodesWF p.nodes ∧ 0 < p.nodes.length

/-- Follow `w` from the root. -/
def PTA.reach (p : PTA) (w : Str) : Option Nat := reachFrom p.nodes 0 w

/-- Accept flag of node `v`. -/
def acceptAtP (p : PTA) (v : Nat) : Bool := (p.nodes.getD v default).accept

/-- Accept flag of the node that `w` reached before the call, if any. -/
def oldAcceptOf (p : PTA) (w : Str) : Bool :=
  match p.reach w with
  | some v => acceptAtP p v
  | none => false

/-- The transition table `complete` builds in its sink-adding branch. -/
def completedDelta (d : DFA) : List (List (Char × Nat)) :=
  d.delta.map (fun row => row ++
    (d.alphabet.filter (fun a => (alookup a row).isNone)).map (fun a => (a, d.delta.length))) ++
  [d.alphabet.map (fun a => (a, d.delta.length))]

/-- The DFA `complete` returns in its sink-adding branch. -/
def completedDFA (d : DFA) : DFA :=
  ⟨d.start, completedDelta d, d.accept ++ [false], d.alphabet⟩

end Rpni

/-- PTA after inserting "a" as positive and then "a" as negative. -/
def c8pta : Rpni.PTA := ((Rpni.PTA.empty.add_path ['a'] true).1.add_path ['a'] false).1

/-- A DFA with an accepting start state and no transitions over alphabet {a}. -/
def c9dfa : Rpni.DFA := ⟨0, [[]], [true], ['a']⟩

/-- The PTA RPNI builds from P = {"a"}, N = {"b"}. -/
def c1pta : Rpni.PTA := Rpni.buildPTA [['a']] [['b']]

namespace EcRuntime

/-- A grammar: an insertion-ordered dict from nonterminal names to lists of
alternatives, each alternative a list of symbols (strings). -/
abbrev Grammar := List (Str × List (List Str))

/-- `This_sym(t)`: the string `<$[t]>`. -/
def This_sym (t : Str) : Str := '<' :: '$' :: '[' :: (t ++ [']', '>'])

/-- `Any_one = '<$.>'`. -/
def Any_one : Str := ['<', '$', '.', '>']

/-- `Any_plus = '<$.+>'`. -/
def Any_plus : Str := ['<', '$', '.', '+', '>']

/-- `Empty = '<$>'` (named `emptySym` here, `Empty` is taken in Lean). -/
def emptySym : Str := ['<', '$', '>']

/-- `Any_not(t)`: the string `<$![t]>`. -/
def Any_not (t : Str) : Str := '<' :: '$' :: '!' :: '[' :: (t ++ [']', '>'])

/-- `Any_term = '$.'`. -/
def Any_term : Str := ['$', '.']

/-- `Any_not_term % t = '!t'`. -/
def Any_not_term (t : Str) : Str := '!' :: t

/-- Modelled from the spec: `is_nt` lives in the external `earleyparser`
module (not in src); per §3 of the spec, nonterminals are exactly the
strings wrapped in angle brackets. -/
def is_nt (s : Str) : Bool :=
  decide (s.head? = some '<') && decide (s.getLast? = some '>')

/-- `translate_terminal`: keep nonterminals, wrap terminals in `<$[...]>`. -/
def translate_terminal (t : Str) : Str := if is_nt t then t else This_sym t

/-- `translate_terminals`: apply `translate_terminal` to every symbol. -/
def translate_terminals (g : Grammar) : Grammar :=
  g.map (fun kv => (kv.1, kv.2.map (fun alt => alt.map translate_terminal)))

/-- `corrupt_start`: `'<@# %s>' % old_start[1:-1]`. -/
def corrupt_start (s : Str) : Str := '<' :: '@' :: '#' :: ' ' :: ((s.drop 1).dropLast ++ ['>'])

/-- Python dict-literal merge `{**g1, **g2}`: later keys override in place,
new keys are appended in order. -/
def dictMerge (g1 g2 : Grammar) : Grammar :=
  g2.foldl (fun acc kv => aset kv.1 kv.2 acc) g1

/-- `add_start`: the trailing-junk wrapper grammar and its start symbol. -/
def add_start (old_start : Str) : Grammar × Str :=
  ([(corrupt_start old_start, [[old_start], [old_start, Any_plus]])], corrupt_start old_start)

/-- `Match_any_sym`: `<$.> -> $.`. -/
def matchAnySymG : Grammar := [(Any_one, [[Any_term]])]

/-- `Match_any_sym_plus`: `<$.+> -> <$.> | <$.+> <$.>`. -/
def matchAnySymPlusG : Grammar := [(Any_plus, [[Any_one], [Any_plus, Any_one]])]

/-- `Match_any_sym_except`: `<$![kk]> -> !kk` for each terminal. -/
def matchAnySymExceptG (symbols : List Str) : Grammar :=
  symbols.map (fun kk => (Any_not kk, [[Any_not_term kk]]))

/-- `Match_empty`: `<$> -> []`. -/
def matchEmptyG : Grammar := [(emptySym, [[]])]

/-- `Match_a_sym`: `<$[kk]> -> kk | <$.+> kk | <$> | <$![kk]>`. -/
def matchASymG (symbols : List Str) : Grammar :=
  symbols.map (fun kk => (This_sym kk, [[kk], [Any_plus, kk], [emptySym], [Any_not kk]]))

/-- `augment_grammar_ex` with an explicit `symbols` list (the repairer's
`earley_correct` always passes `symbols = terminals_of_grammar(g)`; with
`symbols=None` the source derives the same sorted terminal list itself).
The dict-literal merge order follows the source exactly. -/
def augment_grammar_ex (g : Grammar) (start : Str) (symbols : List Str) : Grammar × Str :=
  let sg := add_start start
  let covering :=
    dictMerge (dictMerge (dictMerge (dictMerge (dictMerge (dictMerge (dictMerge
      sg.1 g) (translate_terminals g)) matchAnySymG) matchAnySymPlusG) (matchASymG symbols))
      (matchAnySymExceptG symbols)) matchEmptyG
  (covering, sg.2)

/-- Modelled from the spec: `rem_terminals` lives in the external
`earleyparser` module (not in src); it keeps only the alternatives made
entirely of nonterminals, since an alternative containing a terminal can
never derive epsilon. -/
def rem_terminals (g : Grammar) : Grammar :=
  g.map (fun kv => (kv.1, kv.2.filter (fun alt => alt.all (fun t => is_nt t))))

abbrev NMap := List (Str × Nat)

abbrev GAlts := List (List Str × Nat)

abbrev GCur := List (Str × GAlts)

/-- The inner `for alt, penalty in g_cur[k]` loop of `nullable_ex`: returns
the surviving (filtered, penalty-bumped) alternatives seen before a break,
and the found nullable penalty when an alternative emptied. -/
def processAlts (nxt : Str) (pnxt : Nat) : GAlts → GAlts × Option Nat
  | [] => ([], none)
  | (alt, pen) :: rest =>
    let pen2 := (alt.countP (fun t => decide (t = nxt))) * pnxt
    let alt2 := alt.filter (fun t => !(decide (t = nxt)))
    if alt2.isEmpty then ([], some (pen + pen2))
    else
      let r := processAlts nxt pnxt rest
      ((alt2, pen + pen2) :: r.1, r.2)

/-- One pass of the `for k in g_cur` loop: accumulates new nullable
entries, the keys appended to the worklist, and the next `g_cur`. -/
def nullablePass (nxt : Str) (pnxt : Nat) (gcur : GCur) (nk0 : NMap) :
    NMap × List Str × GCur :=
  gcur.foldl (fun (st : NMap × List Str × GCur) kv =>
    if (alookup kv.1 st.1).isSome then st
    else
      let r := processAlts nxt pnxt kv.2
      match r.2 with
      | some p =>
        (st.1 ++ [(kv.1, p)], st.2.1 ++ [kv.1],
         if r.1.isEmpty then st.2.2 else st.2.2 ++ [(kv.1, r.1)])
      | none => (st.1, st.2.1, if r.1.isEmpty then st.2.2 else st.2.2 ++ [(kv.1, r.1)]))
    (nk0, [], [])

/-- The `while unprocessed` loop of `nullable_ex`, fuel-bounded. -/
def nullableLoop : Nat → NMap → List Str → GCur → Option NMap
  | _, nk, [], _ => some nk
  | 0, _, _ :: _, _ => none
  | f + 1, nk, nxt :: rest, gcur =>
    let pnxt := (alookup nxt nk).getD 0
    let r := nullablePass nxt pnxt gcur nk
    nullableLoop f r.1 (rest ++ r.2.1) r.2.2

/-- The initial nullable map: keys with an epsilon alternative; `<$>` gets
penalty 1, every other seed penalty 0. -/
def nullableInit (g : Grammar) : NMap :=
  (g.filter (fun kv => kv.2.any (fun alt => alt.isEmpty))).map
    (fun kv => (kv.1, if kv.1 = emptySym then 1 else 0))

/-- The initial `g_cur`: `rem_terminals` output with penalty 0 per alternative. -/
def nullableGCur0 (g : Grammar) : GCur :=
  (rem_terminals g).map (fun kv => (kv.1, kv.2.map (fun alt => (alt, 0))))

/-- `nullable_ex(g)`: the fuel bound `g.length + seeds` dominates the number
of worklist pops, so `none` is unreachable (claim C10). -/
def nullable_ex (g : Grammar) : Option NMap :=
  nullableLoop (g.length + (nullableInit g).length) (nullableInit g)
    ((nullableInit g).map (fun kv => kv.1)) (nullableGCur0 g)

/-- An Earley state (`ECState`): columns are referenced by index. -/
structure ECState where
  name : Str
  expr : List Str
  dot : Nat
  sCol : Nat
  eCol : Option Nat
  penalty : Nat
deriving Repr, DecidableEq

/-- The penalty `ECState.__init__` assigns from the name alone:
`<$>`, `<$.>` and `<$![...]>` cost 1, everything else 0. -/
def basePenalty (name : Str) : Nat :=
  if name = emptySym then 1
  else if name = Any_one then 1
  else if (['<', '$', '!', '['] : Str).isPrefixOf name then 1
  else 0

/-- `create_state` / `ECState.__init__`. -/
def ECState.mkInit (name : Str) (expr : List Str) (dot : Nat) (sCol : Nat) : ECState :=
  ⟨name, expr, dot, sCol, none, basePenalty name⟩

/-- `ECState.advance`: move the dot, keep the penalty and end column. -/
def ECState.advance (s : ECState) : ECState :=
  { s with dot := s.dot + 1 }

/-- Modelled from the spec: the de-duplication key of the base
`earleyparser.State` (not in src) is `(name, rule, dot, startCol)`. -/
def stateKey (s : ECState) : Str × List Str × Nat × Nat := (s.name, s.expr, s.dot, s.sCol)

/-- An Earley chart column (`ECColumn`): the scanning list `states`, the
de-duplication dict `uniqueKeys` keyed by `stateKey`, and the pruning cap. -/
structure ECColumn where
  index : Nat
  letter : Option Char
  states : List ECState
  uniqueKeys : List ((Str × List Str × Nat × Nat) × ECState)
  maxPenalty : Option Nat
deriving Repr, DecidableEq

/-- The de-duplication core of `ECColumn.add` (after the pruning guard). -/
def addCore (col : ECColumn) (s : ECState) : ECColumn :=
  match alookup (stateKey s) col.uniqueKeys with
  | some st0 =>
    if st0.penalty > s.penalty then
      { col with uniqueKeys := aset (stateKey s) { s with eCol := some col.index } col.uniqueKeys,
                 states := col.states ++ [{ s with eCol := some col.index }] }
    else col
  | none =>
    { col with uniqueKeys := col.uniqueKeys ++ [(stateKey s, { s with eCol := some col.index })],
               states := col.states ++ [{ s with eCol := some col.index }] }

/-- `ECColumn.add`: drop the state when its penalty exceeds the cap (a
`None` cap raises and is swallowed in the source, i.e. no pruning), then
de-duplicate by key, lower penalty winning. -/
def ECColumn.add (col : ECColumn) (s : ECState) : ECColumn :=
  match col.maxPenalty with
  | some mp => if s.penalty > mp then col else addCore col s
  | none => addCore col s

/-- A fresh column (`create_column`). -/
def emptyColumn (idx : Nat) (letter : Option Char) (mp : Option Nat) : ECColumn :=
  ⟨idx, letter, [], [], mp⟩

/-- Modelled from the spec: `State.at_dot` of the external `earleyparser`
returns the symbol after the dot, if any. -/
def at_dot (s : ECState) : Option Str := s.expr.get? s.dot

/-- The advanced parents that `ErrorCorrectingEarleyParser.complete` adds:
each parent waiting on the completed state's name, advanced, with the
child's penalty added. -/
def completeCandidates (sColStates : List ECState) (child : ECState) : List ECState :=
  (sColStates.filter (fun st => decide (at_dot st = some child.name))).map
    (fun st => { st.advance with penalty := st.advance.penalty + child.penalty })

/-- `ErrorCorrectingEarleyParser.complete`. -/
def completeOp (col : ECColumn) (child : ECState) (sColStates : List ECState) : ECColumn :=
  (completeCandidates sColStates child).foldl ECColumn.add col

/-- `ErrorCorrectingEarleyParser.predict`: predict every alternative of the
nonterminal at the dot; when it is nullable, also advance the parent with
the nullable penalty added. -/
def predictOp (g : Grammar) (eps : NMap) (col : ECColumn) (sym : Str) (state : ECState) : ECColumn :=
  let col1 := ((alookup sym g).getD []).foldl
    (fun c alt => c.add (ECState.mkInit sym alt 0 col.index)) col
  if (alookup sym eps).isSome then
    col1.add { state.advance with penalty := state.advance.penalty + (alookup sym eps).getD 0 }
  else col1

end EcRuntime

namespace RepairerEc

/-- `ErrorCorrectingEarleyParser.__init__`'s cap:
`int(os.getenv("LSTAR_MAX_PENALTY", "8"))`. -/
def parserInitMaxPenalty (env : Option Nat) : Nat := env.getD 8

/-- `earley_correct`'s cap when its `max_penalty` argument is `None`:
`int(os.getenv("LSTAR_MAX_PENALTY", "32"))`, else the argument. -/
def earleyCorrectMaxPenalty (arg : Option Nat) (env : Option Nat) : Nat :=
  arg.getD (env.getD 32)

/-- Order-preserving de-duplication of the retry budgets (the source's
seen-set comprehension). -/
def dedupPreserve (l : List Nat) : List Nat :=
  (l.foldl (fun (st : List Nat × List Nat) x =>
    if x ∈ st.2 then st else (st.1 ++ [x], st.2 ++ [x])) ([], [])).1

/-- `attempts = [mp0, max(1, mp0 // 2), 1]`, de-duplicated in order. -/
def attemptsFor (mp : Nat) : List Nat := dedupPreserve [mp, max 1 (mp / 2), 1]

end RepairerEc

namespace EcRuntime

/-- The state actually stored by `ECColumn.add`: `e_col` is set to the column. -/
def stamped (col : ECColumn) (s : ECState) : ECState := { s with eCol := some col.index }

end EcRuntime

def c5child : EcRuntime.ECState := ⟨['<', 'X', '>'], [['a']], 1, 0, none, 3⟩

def c5parent : EcRuntime.ECState := ⟨['<', 'Y', '>'], [['<', 'X', '>']], 0, 0, none, 2⟩

def c6key : Str × List Str × Nat × Nat := (['<', 'X', '>'], [['a']], 0, 0)

def c6stored : EcRuntime.ECState := ⟨['<', 'X', '>'], [['a']], 0, 0, some 0, 5⟩

def c6new : EcRuntime.ECState := ⟨['<', 'X', '>'], [['a']], 0, 0, none, 1⟩

def c6col : EcRuntime.ECColumn := ⟨0, none, [c6stored], [(c6key, c6stored)], none⟩

def c7state : EcRuntime.ECState := ⟨EcRuntime.emptySym, [], 0, 0, none, 1⟩

namespace EcRuntime

/-- An "ordinary" nonterminal of the base grammar: bracketed, and not using
the `<$...>` covering machinery namespace nor the `<@#...>` start wrapper.
The `<Qi>` nonterminals emitted by `dfa_to_right_linear_grammar` are plain. -/
def plainB (s : Str) : Bool :=
  is_nt s && !(List.isPrefixOf ['<', '$'] s) && !(List.isPrefixOf ['<', '@', '#'] s)

mutual
/-- A parse tree node: a symbol name and its list of children (terminal
leaves have no children). -/
inductive PTree where
  | node (name : Str) (children : PForest)
/-- The children of a parse tree node. -/
inductive PForest where
  | nil
  | cons (t : PTree) (ts : PForest)
end

/-- The name of a tree's root. -/
def nameT : PTree → Str
  | .node n _ => n

/-- `key.startswith('<$[')` of `tree_to_str_fix_ex`. -/
def startsWithThis (s : Str) : Bool := List.isPrefixOf ['<', '$', '['] s

/-- `key.endswith(']>')` of `tree_to_str_fix_ex`. -/
def endsWithRB (s : Str) : Bool := List.isSuffixOf [']', '>'] s

/-- `key.find(c)`: index of the first occurrence. -/
def firstIdx (c : Char) : Str → Nat
  | [] => 0
  | x :: rest => if x = c then 0 else firstIdx c rest + 1

/-- `key.rfind(c)`: index of the last occurrence. -/
def lastIdx (c : Char) (s : Str) : Nat := s.length - 1 - firstIdx c s.reverse

/-- `key[key.find('[') + 1 : key.rfind(']')]`: the expected terminal inside
a `<$[...]>` name. -/
def extractExpected (key : Str) : Str :=
  (key.drop (firstIdx '[' key + 1)).take (lastIdx ']' key - (firstIdx '[' key + 1))

mutual
/-- `tree_to_str_fix_ex`: emit the expected terminal of every `<$[a]>`
node, drop the `<$.+>`, `<$>`, `<$![a]>` machinery, recurse elsewhere,
and emit nothing for terminal leaves. -/
def projectT : PTree → Str
  | .node key children =>
    if is_nt key then
      if startsWithThis key && endsWithRB key then extractExpected key
      else if decide (key = Any_plus) || decide (key = emptySym) ||
          List.isPrefixOf ['<', '$', '!', '['] key then []
      else projectF children
    else []
def projectF : PForest → Str
  | .nil => []
  | .cons t ts => projectT t ++ projectF ts
end

mutual
/-- The input consumed by a tree: the concatenation of its terminal leaves. -/
def yieldT : PTree → Str
  | .node key children => if is_nt key then yieldF children else key
def yieldF : PForest → Str
  | .nil => []
  | .cons t ts => yieldT t ++ yieldF ts
end

mutual
/-- The penalty of a tree: every node contributes its `ECState.__init__`
base penalty (1 for `<$>`, `<$.>`, `<$![...]>`). -/
def penT : PTree → Nat
  | .node key children => basePenalty key + penF children
def penF : PForest → Nat
  | .nil => 0
  | .cons t ts => penT t + penF ts
end

/-- `match_terminal` combined with the shape of a scanned leaf: a terminal
position is matched by a childless leaf whose name is the scanned letter
(`$.` accepts any letter, `!a` any letter other than `a`, a plain
single-character terminal exactly itself). -/
def termMatch (s : Str) : PTree → Bool
  | .node key children =>
    (match children with | .nil => true | .cons _ _ => false) &&
    (if decide (s = Any_term) then decide (key.length = 1)
     else match s with
       | '!' :: c2 :: _ => decide (key.length = 1) && !(decide (key = [c2]))
       | [c] => decide (key = [c])
       | _ => false)

mutual
/-- Validity of a parse tree against a grammar: the node's name resolves,
some alternative matches the children. -/
inductive TreeOK (cov : Grammar) : PTree → Prop where
  | node (key : Str) (children : PForest) (alts : List (List Str)) (alt : List Str) :
      alookup key cov = some alts → alt ∈ alts → ForestOK cov alt children →
      TreeOK cov (.node key children)
/-- The children match the alternative position by position. -/
inductive ForestOK (cov : Grammar) : List Str → PForest → Prop where
  | nil : ForestOK cov [] .nil
  | consNT (s : Str) (t : PTree) (ss : List Str) (ts : PForest) :
      is_nt s = true → nameT t = s → TreeOK cov t → ForestOK cov ss ts →
      ForestOK cov (s :: ss) (.cons t ts)
  | consTerm (s : Str) (t : PTree) (ss : List Str) (ts : PForest) :
      is_nt s = false → termMatch s t = true → ForestOK cov ss ts →
      ForestOK cov (s :: ss) (.cons t ts)
end

mutual
/-- Membership in the language of the base grammar, by derivation trees. -/
inductive Derives (g : Grammar) : Str → Str → Prop where
  | mk (A : Str) (alts : List (List Str)) (alt : List Str) (w : Str) :
      alookup A g = some alts → alt ∈ alts → DerivesSeq g alt w → Derives g A w
/-- A sentential form of symbols derives a string. -/
inductive DerivesSeq (g : Grammar) : List Str → Str → Prop where
  | nil : DerivesSeq g [] []
  | consT (s : Str) (ss : List Str) (w : Str) : is_nt s = false →
      DerivesSeq g ss w → DerivesSeq g (s :: ss) (s ++ w)
  | consN (s v : Str) (ss : List Str) (w : Str) : is_nt s = true →
      Derives g s v → DerivesSeq g ss w → DerivesSeq g (s :: ss) (v ++ w)
end

mutual
/-- Size of a tree, for strong induction. -/
def sizeT : PTree → Nat
  | .node _ children => sizeF children + 1
/-- Size of a forest. -/
def sizeF : PForest → Nat
  | .nil => 0
  | .cons t ts => sizeT t + sizeF ts + 1
end

def c2g : Grammar := [(['<', 'Q', '0', '>'], [[]])]

def c2start : Str := ['<', 'Q', '0', '>']

def c2child : PTree := PTree.node c2start PForest.nil

def c2forest : PForest := PForest.cons c2child PForest.nil

/-- The step function of `nullablePass`'s fold, named for the termination
analysis of `nullable_ex` (claim C10). -/
def passStep (nxt : Str) (pnxt : Nat) (st : NMap × List Str × GCur) (kv : Str × GAlts) :
    NMap × List Str × GCur :=
  if (alookup kv.1 st.1).isSome then st
  else
    let r := processAlts nxt pnxt kv.2
    match r.2 with
    | some p =>
      (st.1 ++ [(kv.1, p)], st.2.1 ++ [kv.1],
       if r.1.isEmpty then st.2.2 else st.2.2 ++ [(kv.1, r.1)])
    | none => (st.1, st.2.1, if r.1.isEmpty then st.2.2 else st.2.2 ++ [(kv.1, r.1)])

/-- A grammar where A's first production empties at summed penalty 2 while
its second production empties at summed penalty 1. -/
def c4g : Grammar :=
  [(['<', 'A', '>'], [[emptySym, emptySym], [emptySym]]), (emptySym, [[]])]

/-- The nullable map of the witness covering grammar. -/
def c4nk : NMap :=
  [(['<', 'Q', '0', '>'], 0), (['<', '$', '>'], 1),
   (['<', '@', '#', ' ', 'Q', '0', '>'], 0), (['<', '$', '[', 'a', ']', '>'], 1)]

end EcRuntime

namespace Rpni

theorem alookup_aset {α β : Type} [DecidableEq α] (a a' : α) (v : β) (m : List (α × β)) :
    alookup a' (aset a v m) = if a' = a then some v else alookup a' m := by
  induction m with
  | nil =>
    simp only [aset, alookup]
    by_cases h : a = a'
    · subst h; simp
    · rw [if_neg h, if_neg (fun hh : a' = a => h hh.symm)]
  | cons kv rest ih =>
    obtain ⟨k, b⟩ := kv
    simp only [aset]
    by_cases hk : k = a
    · subst hk
      rw [if_pos rfl]
      simp only [alookup]
      by_cases h : k = a'
      · subst h; simp
      · rw [if_neg h, if_neg h, if_neg (fun hh : a' = k => h hh.symm)]
    · rw [if_neg hk]
      simp only [alookup, ih]
      by_cases h : k = a'
      · subst h
        simp [fun hh : k = a => hk hh]
      · rw [if_neg h, if_neg h]

theorem getD_set {α : Type} (l : List α) (i j : Nat) (v d : α) :
    (l.set i v).getD j d = if j = i ∧ i < l.length then v else l.getD j d := by
  simp only [List.getD_eq_getElem?_getD, List.getElem?_set]
  by_cases h1 : i = j
  · subst h1
    by_cases h2 : i < l.length
    · simp [h2]
    · have hn : l[i]? = none := List.getElem?_eq_none (Nat.le_of_not_lt h2)
      simp [h2, hn]
  · have h1' : ¬ (j = i ∧ i < l.length) := fun hh => h1 hh.1.symm
    simp [h1, h1']

theorem getD_append_sing {α : Type} (l : List α) (x d : α) (j : Nat) :
    (l ++ [x]).getD j d = if j < l.length then l.getD j d else if j = l.length then x else d := by
  simp only [List.getD_eq_getElem?_getD, List.getElem?_append]
  by_cases h1 : j < l.length
  · simp [h1]
  · by_cases h2 : j = l.length
    · subst h2; simp
    · have h3 : l.length < j := Nat.lt_of_le_of_ne (Nat.le_of_not_lt h1) (Ne.symm h2)
      have hn : ([x] : List α)[j - l.length]? = none := List.getElem?_eq_none (by simp; omega)
      simp [h1, h2, hn]

theorem getD_oob {α : Type} [Inhabited α] (l : List α) (j : Nat) (h : l.length ≤ j) :
    l.getD j default = default := by
  have hn : l[j]? = none := List.getElem?_eq_none h
  simp [List.getD_eq_getElem?_getD, hn]

theorem inits_cons {α : Type} (a : α) (l : List α) :
    (a :: l).inits = [] :: l.inits.map (a :: ·) := by
  simp [List.inits]

theorem reachFrom_leaf (nodes : List Node) (v : Nat) (q : Str)
    (hleaf : (nodes.getD v default).next = []) (hq : q ≠ []) :
    reachFrom nodes v q = none := by
  cases q with
  | nil => exact absurd rfl hq
  | cons a w =>
    simp only [reachFrom]
    rw [hleaf]
    rfl

theorem missingCount_leaf (nodes : List Node) (v : Nat) (w : Str)
    (hleaf : (nodes.getD v default).next = []) :
    missingCountP nodes v w = w.length := by
  cases w with
  | nil => simp [missingCountP, List.inits, reachFrom, List.countP_cons]
  | cons b w' =>
    simp only [missingCountP, inits_cons, List.countP_cons, List.countP_map]
    have h2 : List.countP ((fun q => (reachFrom nodes v q).isNone) ∘ (b :: ·)) w'.inits
        = w'.inits.length := by
      apply List.countP_eq_length.mpr
      intro q _
      simp only [Function.comp_apply]
      rw [reachFrom_leaf nodes v (b :: q) hleaf (by simp)]
      rfl
    rw [h2]
    simp [reachFrom, List.length_inits]

theorem missingCount_nolink (nodes : List Node) (s : Nat) (a : Char) (w : Str)
    (hlk : alookup a ((nodes.getD s default).next) = none) :
    missingCountP nodes s (a :: w) = w.length + 1 := by
  simp only [missingCountP, inits_cons, List.countP_cons, List.countP_map]
  have h2 : List.countP ((fun q => (reachFrom nodes s q).isNone) ∘ (a :: ·)) w.inits
      = w.inits.length := by
    apply List.countP_eq_length.mpr
    intro q _
    simp only [Function.comp_apply, reachFrom]
    rw [hlk]
    rfl
  rw [h2]
  simp [reachFrom, List.length_inits]

theorem missingCount_link (nodes : List Node) (s t : Nat) (a : Char) (w : Str)
    (hlk : alookup a ((nodes.getD s default).next) = some t) :
    missingCountP nodes s (a :: w) = missingCountP nodes t w := by
  simp only [missingCountP, inits_cons, List.countP_cons, List.countP_map]
  have h2 : ((fun q => (reachFrom nodes s q).isNone) ∘ (a :: ·))
      = fun q => (reachFrom nodes t q).isNone := by
    funext q
    simp only [Function.comp_apply, reachFrom]
    rw [hlk]
  rw [h2]
  simp [reachFrom]

theorem addPathGo_spec (w : Str) :
    ∀ (nodes : List Node) (alph : List Char) (s : Nat),
      NodesWF nodes → s < nodes.length →
      NodesWF (addPathGo nodes alph s w).1 ∧
      nodes.length ≤ (addPathGo nodes alph s w).1.length ∧
      (∀ v a' u, alookup a' ((nodes.getD v default).next) = some u →
        alookup a' (((addPathGo nodes alph s w).1.getD v default).next) = some u) ∧
      (∀ v, v < nodes.length →
        ((addPathGo nodes alph s w).1.getD v default).accept = (nodes.getD v default).accept) ∧
      (∀ v, nodes.length ≤ v → ((addPathGo nodes alph s w).1.getD v default).accept = false) ∧
      (addPathGo nodes alph s w).1.length = nodes.length + missingCountP nodes s w ∧
      reachFrom (addPathGo nodes alph s w).1 s w = some (addPathGo nodes alph s w).2.2 ∧
      (addPathGo nodes alph s w).2.2 < (addPathGo nodes alph s w).1.length ∧
      (∀ v, reachFrom nodes s w = some v → (addPathGo nodes alph s w).2.2 = v) ∧
      (reachFrom nodes s w = none → nodes.length ≤ (addPathGo nodes alph s w).2.2) := by
  induction w with
  | nil =>
    intro nodes alph s hwf hs
    refine ⟨hwf, le_refl _, fun v a' u h => h, fun v _ => rfl, ?_, ?_, rfl, hs, ?_, ?_⟩
    · intro v hv
      show (nodes.getD v default).accept = false
      rw [getD_oob nodes v hv]
      rfl
    · show nodes.length = nodes.length + missingCountP nodes s []
      simp [missingCountP, List.inits, reachFrom, List.countP_cons]
    · intro v hv
      show s = v
      simpa [reachFrom] using hv
    · intro hv
      simp [reachFrom] at hv
  | cons a w ih =>
    intro nodes alph s hwf hs
    cases hlk : alookup a ((nodes.getD s default).next) with
    | some t =>
      have hstep : addPathGo nodes alph s (a :: w) = addPathGo nodes (setAdd alph a) t w := by
        simp only [addPathGo]
        rw [hlk]
      have ht : t < nodes.length := hwf s a t hlk
      obtain ⟨W, Len, E, A, Af, L, R, S, M, Mn⟩ := ih nodes (setAdd alph a) t hwf ht
      have hreach : ∀ z, reachFrom nodes s (a :: w) = z → reachFrom nodes t w = z := by
        intro z hz
        simp only [reachFrom] at hz
        rw [hlk] at hz
        exact hz
      rw [hstep]
      refine ⟨W, Len, E, A, Af, ?_, ?_, S, ?_, ?_⟩
      · rw [missingCount_link nodes s t a w hlk]
        exact L
      · simp only [reachFrom]
        rw [E s a t hlk]
        exact R
      · intro v hv
        exact M v (hreach _ hv)
      · intro hv
        exact Mn (hreach _ hv)
    | none =>
      have hstep : addPathGo nodes alph s (a :: w) =
          addPathGo
            ((nodes.set s { nodes.getD s default with
                next := aset a nodes.length (nodes.getD s default).next }) ++
              [{ accept := false, next := [], parent := (s : Int), via := [a] }])
            (setAdd alph a) nodes.length w := by
        simp only [addPathGo]
        rw [hlk]
      set N2 := (nodes.set s { nodes.getD s default with
          next := aset a nodes.length (nodes.getD s default).next }) ++
          [{ accept := false, next := [], parent := (s : Int), via := [a] }] with hN2
      have hlen2 : N2.length = nodes.length + 1 := by
        rw [hN2]
        simp
      have hgetD2 : ∀ v : Nat, N2.getD v default =
          (if v = s then { nodes.getD s default with
              next := aset a nodes.length (nodes.getD s default).next }
           else if v = nodes.length then
             { accept := false, next := [], parent := (s : Int), via := [a] }
           else nodes.getD v default) := by
        intro v
        rw [hN2, getD_append_sing, getD_set, List.length_set]
        simp only [and_iff_left hs]
        split_ifs <;> first
          | rfl
          | omega
          | (rw [getD_oob nodes v (by omega)])
      have hwf2 : NodesWF N2 := by
        intro v a' t' hl
        rw [hgetD2 v] at hl
        rw [hlen2]
        by_cases hv : v = s
        · rw [if_pos hv] at hl
          rw [show ({ nodes.getD s default with
              next := aset a nodes.length (nodes.getD s default).next } : Node).next
              = aset a nodes.length (nodes.getD s default).next from rfl, alookup_aset] at hl
          by_cases ha : a' = a
          · rw [if_pos ha] at hl
            injection hl with hl'
            omega
          · rw [if_neg ha] at hl
            have := hwf s a' t' hl
            omega
        · rw [if_neg hv] at hl
          by_cases hv2 : v = nodes.length
          · rw [if_pos hv2] at hl
            exact Option.noConfusion (show (none : Option Nat) = some t' from hl)
          · rw [if_neg hv2] at hl
            have := hwf v a' t' hl
            omega
      have hnid2 : nodes.length < N2.length := by omega
      obtain ⟨W, Len, E, A, Af, L, R, S, M, Mn⟩ := ih N2 (setAdd alph a) nodes.length hwf2 hnid2
      have hleaf2 : (N2.getD nodes.length default).next = [] := by
        rw [hgetD2 nodes.length, if_neg (by omega : ¬ nodes.length = s), if_pos rfl]
      have hE2 : ∀ v a' u, alookup a' ((nodes.getD v default).next) = some u →
          alookup a' ((N2.getD v default).next) = some u := by
        intro v a' u hl
        rw [hgetD2 v]
        by_cases hv : v = s
        · rw [if_pos hv]
          rw [hv] at hl
          show alookup a' (aset a nodes.length (nodes.getD s default).next) = some u
          rw [alookup_aset]
          by_cases ha : a' = a
          · subst ha
            rw [hlk] at hl
            cases hl
          · rw [if_neg ha]
            exact hl
        · rw [if_neg hv]
          by_cases hv2 : v = nodes.length
          · subst hv2
            rw [getD_oob nodes nodes.length (le_refl _)] at hl
            exact Option.noConfusion (show (none : Option Nat) = some u from hl)
          · rw [if_neg hv2]
            exact hl
      have hedge2 : alookup a ((N2.getD s default).next) = some nodes.length := by
        rw [hgetD2 s, if_pos rfl]
        show alookup a (aset a nodes.length (nodes.getD s default).next) = some nodes.length
        rw [alookup_aset, if_pos rfl]
      have hsome2 : ∀ q v0, reachFrom N2 nodes.length q = some v0 → v0 = nodes.length := by
        intro q v0 hq
        cases q with
        | nil =>
          simp only [reachFrom] at hq
          injection hq with hq'
          exact hq'.symm
        | cons c q' =>
          rw [reachFrom_leaf N2 _ _ hleaf2 (by simp)] at hq
          cases hq
      rw [hstep]
      refine ⟨W, by omega, ?_, ?_, ?_, ?_, ?_, S, ?_, ?_⟩
      · intro v a' u hl
        exact E v a' u (hE2 v a' u hl)
      · intro v hv
        have hv2 : v < N2.length := by omega
        rw [A v hv2, hgetD2 v]
        by_cases h2 : v = s
        · subst h2
          rw [if_pos rfl]
        · rw [if_neg h2, if_neg (by omega : ¬ v = nodes.length)]
      · intro v hv
        by_cases h1 : v = nodes.length
        · subst h1
          rw [A nodes.length hnid2, hgetD2 nodes.length,
            if_neg (by omega : ¬ nodes.length = s), if_pos rfl]
        · exact Af v (by omega)
      · rw [missingCount_nolink nodes s a w hlk, L, missingCount_leaf N2 nodes.length w hleaf2]
        omega
      · simp only [reachFrom]
        rw [E s a nodes.length hedge2]
        exact R
      · intro v hv
        simp only [reachFrom] at hv
        rw [hlk] at hv
        cases hv
      · intro _
        cases hr : reachFrom N2 nodes.length w with
        | some v =>
          have h1 := M v hr
          have h2 := hsome2 w v hr
          omega
        | none =>
          have h1 := Mn hr
          omega

theorem reachFrom_set_accept (nodes : List Node) (v : Nat) (b : Bool) :
    ∀ (w : Str) (s : Nat),
    reachFrom (nodes.set v { nodes.getD v default with accept := b }) s w = reachFrom nodes s w := by
  intro w
  induction w with
  | nil => intro s; rfl
  | cons a w ih =>
    intro s
    simp only [reachFrom]
    have hnext : ((nodes.set v { nodes.getD v default with accept := b }).getD s default).next
        = (nodes.getD s default).next := by
      rw [getD_set]
      by_cases h : s = v ∧ v < nodes.length
      · rw [if_pos h, h.1]
      · rw [if_neg h]
    rw [hnext]
    cases hlk : alookup a ((nodes.getD s default).next) with
    | none => rfl
    | some t => exact ih t

theorem reachFrom_lt (nodes : List Node) (hwf : NodesWF nodes) :
    ∀ (w : Str) (s v : Nat), s < nodes.length → reachFrom nodes s w = some v → v < nodes.length := by
  intro w
  induction w with
  | nil =>
    intro s v hs h
    simp only [reachFrom] at h
    injection h with h'
    omega
  | cons a w ih =>
    intro s v hs h
    simp only [reachFrom] at h
    cases hlk : alookup a ((nodes.getD s default).next) with
    | none => rw [hlk] at h; cases h
    | some t =>
      rw [hlk] at h
      exact ih t v (hwf s a t hlk) h

theorem reachFrom_append_isSome (nodes : List Node) :
    ∀ (q r : Str) (s : Nat),
      (reachFrom nodes s (q ++ r)).isSome → (reachFrom nodes s q).isSome := by
  intro q
  induction q with
  | nil => intro r s _; simp [reachFrom]
  | cons a q' ih =>
    intro r s h
    simp only [List.cons_append, reachFrom] at h ⊢
    cases hlk : alookup a ((nodes.getD s default).next) with
    | none =>
      rw [hlk] at h
      exact Bool.noConfusion h
    | some t =>
      rw [hlk] at h
      exact ih r t h

theorem emptyWF : PTAWF PTA.empty := by
  constructor
  · intro v a t h
    have hnil : ((PTA.empty.nodes.getD v default).next) = [] := by
      cases v with
      | zero => rfl
      | succ n => rfl
    rw [hnil] at h
    exact Option.noConfusion h
  · exact Nat.zero_lt_one

theorem add_path_spec (p : PTA) (w : Str) (isPos : Bool) (hwf : PTAWF p) :
    PTA.reach (p.add_path w isPos).1 w = some (p.add_path w isPos).2 ∧
    (∀ q ∈ w.inits, (PTA.reach (p.add_path w isPos).1 q).isSome) ∧
    (p.add_path w isPos).1.nodes.length = p.nodes.length + missingCountP p.nodes 0 w ∧
    acceptAtP (p.add_path w isPos).1 (p.add_path w isPos).2 = (isPos || oldAcceptOf p w) ∧
    PTAWF (p.add_path w isPos).1 := by
  obtain ⟨W, Len, E, A, Af, L, R, S, M, Mn⟩ := addPathGo_spec w p.nodes p.alphabet 0 hwf.1 hwf.2
  by_cases hp : isPos
  · subst hp
    have h1 : (p.add_path w true).1.nodes =
        (addPathGo p.nodes p.alphabet 0 w).1.set (addPathGo p.nodes p.alphabet 0 w).2.2
          { (addPathGo p.nodes p.alphabet 0 w).1.getD (addPathGo p.nodes p.alphabet 0 w).2.2 default
            with accept := true } := rfl
    have h2 : (p.add_path w true).2 = (addPathGo p.nodes p.alphabet 0 w).2.2 := rfl
    have hre : ∀ q : Str, PTA.reach (p.add_path w true).1 q
        = reachFrom (addPathGo p.nodes p.alphabet 0 w).1 0 q := by
      intro q
      show reachFrom (p.add_path w true).1.nodes 0 q = _
      rw [h1, reachFrom_set_accept]
    refine ⟨?_, ?_, ?_, ?_, ?_, ?_⟩
    · rw [hre w, h2]
      exact R
    · intro q hq
      obtain ⟨rst, hrst⟩ := (List.mem_inits q w).mp hq
      rw [hre q]
      apply reachFrom_append_isSome (addPathGo p.nodes p.alphabet 0 w).1 q rst 0
      rw [hrst, R]
      rfl
    · show ((p.add_path w true).1.nodes).length = _
      rw [h1, List.length_set]
      exact L
    · show ((p.add_path w true).1.nodes.getD (p.add_path w true).2 default).accept = _
      rw [h1, h2, getD_set, if_pos ⟨rfl, S⟩]
      rfl
    · intro v a t hl
      rw [h1, List.length_set]
      rw [h1, getD_set] at hl
      by_cases h : v = (addPathGo p.nodes p.alphabet 0 w).2.2 ∧
          (addPathGo p.nodes p.alphabet 0 w).2.2 < (addPathGo p.nodes p.alphabet 0 w).1.length
      · rw [if_pos h] at hl
        exact W (addPathGo p.nodes p.alphabet 0 w).2.2 a t hl
      · rw [if_neg h] at hl
        exact W v a t hl
    · rw [h1, List.length_set]
      omega
  · have hp' : isPos = false := Bool.eq_false_iff.mpr hp
    subst hp'
    have h1 : (p.add_path w false).1.nodes = (addPathGo p.nodes p.alphabet 0 w).1 := rfl
    have h2 : (p.add_path w false).2 = (addPathGo p.nodes p.alphabet 0 w).2.2 := rfl
    refine ⟨?_, ?_, ?_, ?_, ?_, ?_⟩
    · show reachFrom (p.add_path w false).1.nodes 0 w = _
      rw [h1, h2]
      exact R
    · intro q hq
      obtain ⟨rst, hrst⟩ := (List.mem_inits q w).mp hq
      show (reachFrom (p.add_path w false).1.nodes 0 q).isSome
      rw [h1]
      apply reachFrom_append_isSome (addPathGo p.nodes p.alphabet 0 w).1 q rst 0
      rw [hrst, R]
      rfl
    · show ((p.add_path w false).1.nodes).length = _
      rw [h1]
      exact L
    · show ((p.add_path w false).1.nodes.getD (p.add_path w false).2 default).accept = _
      rw [h1, h2]
      cases hrw : reachFrom p.nodes 0 w with
      | some v =>
        have hv : v < p.nodes.length := reachFrom_lt p.nodes hwf.1 w 0 v hwf.2 hrw
        rw [M v hrw, A v hv]
        show acceptAtP p v = (false || oldAcceptOf p w)
        have : oldAcceptOf p w = acceptAtP p v := by
          show (match p.reach w with | some v => acceptAtP p v | none => false) = _
          show (match reachFrom p.nodes 0 w with | some v => acceptAtP p v | none => false) = _
          rw [hrw]
        rw [this, Bool.false_or]
      | none =>
        rw [Af (addPathGo p.nodes p.alphabet 0 w).2.2 (Mn hrw)]
        have : oldAcceptOf p w = false := by
          show (match reachFrom p.nodes 0 w with | some v => acceptAtP p v | none => false) = _
          rw [hrw]
        rw [this]
        rfl
    · show NodesWF (p.add_path w false).1.nodes
      rw [h1]
      exact W
    · show 0 < (p.add_path w false).1.nodes.length
      rw [h1]
      omega

theorem getD_oob2 {α : Type} (l : List α) (j : Nat) (dv : α) (h : l.length ≤ j) :
    l.getD j dv = dv := by
  have hn : l[j]? = none := List.getElem?_eq_none h
  simp [List.getD_eq_getElem?_getD, hn]

theorem getD_map {α β : Type} (f : α → β) (l : List α) (q : Nat) (d₁ : α) (d₂ : β)
    (h : q < l.length) :
    (l.map f).getD q d₂ = f (l.getD q d₁) := by
  have h1 : l[q]? = some l[q] := List.getElem?_eq_getElem h
  simp [List.getD_eq_getElem?_getD, List.getElem?_map, h1]

theorem alookup_append {α β : Type} [DecidableEq α] (k : α) (m1 m2 : List (α × β)) :
    alookup k (m1 ++ m2) = match alookup k m1 with
      | some v => some v
      | none => alookup k m2 := by
  induction m1 with
  | nil => rfl
  | cons kv rest ih =>
    obtain ⟨a, b⟩ := kv
    simp only [List.cons_append, alookup]
    by_cases h : a = k
    · rw [if_pos h, if_pos h]
    · rw [if_neg h, if_neg h]
      exact ih

theorem alookup_map_pair {α β : Type} [DecidableEq α] (k : α) (l : List α) (c : β) :
    alookup k (l.map (fun x => (x, c))) = if k ∈ l then some c else none := by
  induction l with
  | nil => simp [alookup]
  | cons a rest ih =>
    simp only [List.map_cons, alookup, ih]
    by_cases h : a = k
    · subst h
      simp
    · rw [if_neg h]
      by_cases h2 : k ∈ rest
      · rw [if_pos h2, if_pos (List.mem_cons_of_mem a h2)]
      · rw [if_neg h2, if_neg ?_]
        intro hmem
        cases List.mem_cons.mp hmem with
        | inl he => exact h he.symm
        | inr hm => exact h2 hm

theorem complete_eq (d : DFA) (h1 : ¬ d.alphabet = [])
    (h2 : ((List.range d.delta.length).all
      (fun s => d.alphabet.all (fun a => (alookup a (d.delta.getD s [])).isSome))) = false) :
    complete d = completedDFA d := by
  simp only [complete]
  rw [if_neg h1, if_neg (by rw [h2]; exact Bool.false_ne_true)]
  rfl

theorem acceptsGo_sink (d : DFA) (hlen : d.accept.length = d.delta.length) :
    ∀ w : Str, acceptsGo (completedDFA d) d.delta.length w = false := by
  intro w
  induction w with
  | nil =>
    show ((completedDFA d).accept).getD d.delta.length false = false
    show (d.accept ++ [false]).getD d.delta.length false = false
    rw [getD_append_sing, if_neg (by omega), if_pos hlen.symm]
  | cons a w ih =>
    simp only [acceptsGo]
    have hrow : ((completedDFA d).delta).getD d.delta.length [] =
        d.alphabet.map (fun a => (a, d.delta.length)) := by
      show (completedDelta d).getD d.delta.length [] = _
      rw [completedDelta, getD_append_sing, if_neg (by simp), if_pos (by simp)]
    rw [hrow, alookup_map_pair]
    by_cases ha : a ∈ d.alphabet
    · rw [if_pos ha]
      exact ih
    · rw [if_neg ha]

theorem acceptsGo_completed (d : DFA) (hlen : d.accept.length = d.delta.length) :
    ∀ (w : Str) (q : Nat), acceptsGo (completedDFA d) q w = acceptsGo d q w := by
  intro w
  induction w with
  | nil =>
    intro q
    show (d.accept ++ [false]).getD q false = d.accept.getD q false
    rw [getD_append_sing]
    by_cases h1 : q < d.accept.length
    · rw [if_pos h1]
    · rw [if_neg h1]
      by_cases h2 : q = d.accept.length
      · rw [if_pos h2, getD_oob2 d.accept q false (by omega)]
      · rw [if_neg h2, getD_oob2 d.accept q false (by omega)]
  | cons a w ih =>
    intro q
    simp only [acceptsGo]
    by_cases hq : q < d.delta.length
    · have hrow : ((completedDFA d).delta).getD q [] =
          (d.delta.getD q []) ++
            (d.alphabet.filter (fun x => (alookup x (d.delta.getD q [])).isNone)).map
              (fun x => (x, d.delta.length)) := by
        show (completedDelta d).getD q [] = _
        rw [completedDelta, getD_append_sing, if_pos (by simp [hq]),
          getD_map _ d.delta q [] [] hq]
      rw [hrow, alookup_append]
      cases hl : alookup a (d.delta.getD q []) with
      | some j => exact ih j
      | none =>
        rw [alookup_map_pair]
        by_cases ha : a ∈ d.alphabet
        · rw [if_pos (List.mem_filter.mpr ⟨ha, by rw [hl]; rfl⟩)]
          exact acceptsGo_sink d hlen w
        · rw [if_neg (fun hmem => ha (List.mem_filter.mp hmem).1)]
    · by_cases hq2 : q = d.delta.length
      · subst hq2
        have hs := acceptsGo_sink d hlen (a :: w)
        simp only [acceptsGo] at hs
        rw [hs, getD_oob2 d.delta d.delta.length [] (le_refl _)]
        rfl
      · have hcl : (completedDelta d).length = d.delta.length + 1 := by
          simp [completedDelta]
        have hr1 : ((completedDFA d).delta).getD q [] = [] := by
          show (completedDelta d).getD q [] = []
          exact getD_oob2 _ q [] (by omega)
        rw [hr1, getD_oob2 d.delta q [] (by omega)]
        rfl

theorem complete_accepts (d : DFA) (hlen : d.accept.length = d.delta.length) (w : Str) :
    (complete d).accepts w = d.accepts w := by
  by_cases h1 : d.alphabet = []
  · simp only [complete]
    rw [if_pos h1]
  · by_cases h2 : ((List.range d.delta.length).all
      (fun s => d.alphabet.all (fun a => (alookup a (d.delta.getD s [])).isSome))) = true
    · simp only [complete]
      rw [if_neg h1, if_pos h2]
    · have h2' := Bool.eq_false_iff.mpr h2
      rw [complete_eq d h1 h2']
      show acceptsGo (completedDFA d) (completedDFA d).start w = acceptsGo d d.start w
      exact acceptsGo_completed d hlen w d.start

end Rpni

/-- C8 counterexample: `add_path` never clears the accept flag, so "the
node reached by w is accepting iff is_positive" fails: after inserting
"a" as positive and then again as negative, the node reached by "a" is
still accepting. -/
theorem C8_counterexample :
    Rpni.PTA.reach c8pta ['a'] = some 1 ∧
    Rpni.acceptAtP c8pta 1 = true ∧ ¬ (Rpni.acceptAtP c8pta 1 = false) := by
  decide

/-- C8 (amended): on a well-formed PTA, `add_path(w, is_positive)`
reaches exactly the node it returns, creates exactly the nodes for the
previously missing prefixes of w (every prefix resolves afterwards, and
the node count grows by the number of missing prefixes), and the terminal
node ends accepting iff `is_positive` is true **or it was accepting
before** — the flag is set, never cleared. -/
theorem C8_add_path_amended (p : Rpni.PTA) (w : Str) (isPos : Bool) (hwf : Rpni.PTAWF p) :
    Rpni.PTA.reach (p.add_path w isPos).1 w = some (p.add_path w isPos).2 ∧
    (∀ q ∈ w.inits, (Rpni.PTA.reach (p.add_path w isPos).1 q).isSome) ∧
    (p.add_path w isPos).1.nodes.length = p.nodes.length + Rpni.missingCountP p.nodes 0 w ∧
    Rpni.acceptAtP (p.add_path w isPos).1 (p.add_path w isPos).2
      = (isPos || Rpni.oldAcceptOf p w) := by
  obtain ⟨h1, h2, h3, h4, _⟩ := Rpni.add_path_spec p w isPos hwf
  exact ⟨h1, h2, h3, h4⟩

theorem C8_add_path_amended_witness :
    Rpni.PTAWF Rpni.PTA.empty ∧
    (Rpni.PTA.reach (Rpni.PTA.empty.add_path ['a'] true).1 ['a']
        = some (Rpni.PTA.empty.add_path ['a'] true).2 ∧
      (∀ q ∈ (['a'] : Str).inits,
        (Rpni.PTA.reach (Rpni.PTA.empty.add_path ['a'] true).1 q).isSome) ∧
      (Rpni.PTA.empty.add_path ['a'] true).1.nodes.length
        = Rpni.PTA.empty.nodes.length + Rpni.missingCountP Rpni.PTA.empty.nodes 0 ['a'] ∧
      Rpni.acceptAtP (Rpni.PTA.empty.add_path ['a'] true).1 (Rpni.PTA.empty.add_path ['a'] true).2
        = (true || Rpni.oldAcceptOf Rpni.PTA.empty ['a'])) :=
  ⟨Rpni.emptyWF, C8_add_path_amended Rpni.PTA.empty ['a'] true Rpni.emptyWF⟩

/-- C9 counterexample: simulation on a partial DFA already rejects at a
missing transition — it does not "silently stop" — so completion never
changes a verdict: on a single accepting state with no outgoing edges,
"a" is rejected both before and after `complete`. -/
theorem C9_counterexample :
    Rpni.DFA.accepts c9dfa ['a'] = false ∧
    Rpni.DFA.accepts (Rpni.complete c9dfa) ['a'] = Rpni.DFA.accepts c9dfa ['a'] := by
  decide

/-- C9 (amended): completing a DFA with a sink is *not* required for the
negative-consistency check: `DFA.accepts` returns False the moment a
transition is missing, so for every DFA whose accept vector covers its
delta rows, `complete` preserves the acceptance verdict of every string. -/
theorem C9_complete_amended (d : Rpni.DFA) (w : Str)
    (hlen : d.accept.length = d.delta.length) :
    (Rpni.complete d).accepts w = d.accepts w :=
  Rpni.complete_accepts d hlen w

theorem C9_complete_amended_witness :
    (c9dfa.accept.length = c9dfa.delta.length) ∧
    (Rpni.complete c9dfa).accepts ['b'] = c9dfa.accepts ['b'] :=
  ⟨by decide, C9_complete_amended c9dfa ['b'] (by decide)⟩

theorem c1_loop_aux : ∀ f : Nat, Rpni.learnLoop c1pta [['b']] f [0, 0] [0] = none := by
  intro f
  induction f with
  | zero => rfl
  | succ f ih => exact ih

/-- C1 (code bug): `RPNI.learn` does not return a DFA consistent with
the samples — it does not return at all once any merge is committed: the
loop recomputes BLUE as the children of RED in the unchanged PTA, so the
just-merged node re-enters BLUE and is merged again forever. On the
disjoint samples P = {"a"}, N = {"b"} the fuel-bounded embedding of
`learn` exhausts any fuel. -/
theorem C1_learn_diverges : ∀ fuel : Nat, Rpni.learn [['a']] [['b']] fuel = none := by
  intro fuel
  cases fuel with
  | zero => rfl
  | succ f => exact c1_loop_aux f

theorem alookup_none_iff {α β : Type} [DecidableEq α] (k : α) (m : List (α × β)) :
    alookup k m = none ↔ k ∉ m.map Prod.fst := by
  induction m with
  | nil => simp [alookup]
  | cons kv rest ih =>
    obtain ⟨a, b⟩ := kv
    simp only [alookup, List.map_cons, List.mem_cons]
    by_cases h : a = k
    · subst h
      simp
    · rw [if_neg h, ih]
      constructor
      · intro h1 h2
        cases h2 with
        | inl he => exact h he.symm
        | inr hm => exact h1 hm
      · intro h1 h2
        exact h1 (Or.inr h2)

theorem aset_keys_of_mem {α β : Type} [DecidableEq α] (k : α) (v : β) (m : List (α × β))
    (h : (alookup k m).isSome) :
    (aset k v m).map Prod.fst = m.map Prod.fst := by
  induction m with
  | nil => simp [alookup] at h
  | cons kv rest ih =>
    obtain ⟨a, b⟩ := kv
    simp only [aset]
    by_cases ha : a = k
    · rw [if_pos ha]
      simp
    · rw [if_neg ha]
      simp only [List.map_cons, List.cons.injEq, true_and]
      apply ih
      simp only [alookup, if_neg ha] at h
      exact h

namespace EcRuntime

theorem aset_mem {α β : Type} [DecidableEq α] (k : α) (v : β) (m : List (α × β)) :
    ∀ kv ∈ aset k v m, kv ∈ m ∨ kv.2 = v := by
  induction m with
  | nil =>
    intro kv hkv
    simp only [aset, List.mem_singleton] at hkv
    exact Or.inr (by rw [hkv])
  | cons kv0 rest ih =>
    obtain ⟨a0, b0⟩ := kv0
    intro kv hkv
    simp only [aset] at hkv
    by_cases he : a0 = k
    · rw [if_pos he] at hkv
      cases List.mem_cons.mp hkv with
      | inl h1 => exact Or.inr (by rw [h1])
      | inr h2 => exact Or.inl (List.mem_cons_of_mem _ h2)
    · rw [if_neg he] at hkv
      cases List.mem_cons.mp hkv with
      | inl h1 => exact Or.inl (by rw [h1]; exact List.mem_cons_self _ _)
      | inr h2 =>
        cases ih kv h2 with
        | inl h3 => exact Or.inl (List.mem_cons_of_mem _ h3)
        | inr h3 => exact Or.inr h3

theorem add_eq_none (col : ECColumn) (s : ECState) (hmp : col.maxPenalty = none) :
    ECColumn.add col s = addCore col s := by
  unfold ECColumn.add
  rw [hmp]

theorem add_eq_some (col : ECColumn) (s : ECState) (mp : Nat) (hmp : col.maxPenalty = some mp) :
    ECColumn.add col s = if s.penalty > mp then col else addCore col s := by
  unfold ECColumn.add
  rw [hmp]

theorem addCore_eq_found (col : ECColumn) (s : ECState) (st0 : ECState)
    (halk : alookup (stateKey s) col.uniqueKeys = some st0) :
    addCore col s = if st0.penalty > s.penalty then
      { col with uniqueKeys := aset (stateKey s) (stamped col s) col.uniqueKeys,
                 states := col.states ++ [stamped col s] }
    else col := by
  unfold addCore
  rw [halk]
  rfl

theorem addCore_eq_fresh (col : ECColumn) (s : ECState)
    (halk : alookup (stateKey s) col.uniqueKeys = none) :
    addCore col s =
      { col with uniqueKeys := col.uniqueKeys ++ [(stateKey s, stamped col s)],
                 states := col.states ++ [stamped col s] } := by
  unfold addCore
  rw [halk]
  rfl

theorem add_maxPenalty (col : ECColumn) (s : ECState) :
    (ECColumn.add col s).maxPenalty = col.maxPenalty := by
  have hcore : (addCore col s).maxPenalty = col.maxPenalty := by
    cases halk : alookup (stateKey s) col.uniqueKeys with
    | some st0 =>
      rw [addCore_eq_found col s st0 halk]
      by_cases h : st0.penalty > s.penalty
      · rw [if_pos h]
      · rw [if_neg h]
    | none => rw [addCore_eq_fresh col s halk]
  cases hmp : col.maxPenalty with
  | none => rw [add_eq_none col s hmp, hcore, hmp]
  | some mp =>
    rw [add_eq_some col s mp hmp]
    by_cases h : s.penalty > mp
    · rw [if_pos h, hmp]
    · rw [if_neg h, hcore, hmp]

theorem addCore_cases (col : ECColumn) (s : ECState) :
    (∀ t ∈ (addCore col s).states, t ∈ col.states ∨ t = stamped col s) ∧
    (∀ kv ∈ (addCore col s).uniqueKeys, kv ∈ col.uniqueKeys ∨ kv.2 = stamped col s) := by
  cases halk : alookup (stateKey s) col.uniqueKeys with
  | some st0 =>
    rw [addCore_eq_found col s st0 halk]
    by_cases h : st0.penalty > s.penalty
    · rw [if_pos h]
      constructor
      · intro t ht
        have ht' : t ∈ col.states ++ [stamped col s] := ht
        cases List.mem_append.mp ht' with
        | inl h1 => exact Or.inl h1
        | inr h2 => exact Or.inr (List.mem_singleton.mp h2)
      · intro kv hkv
        have hkv' : kv ∈ aset (stateKey s) (stamped col s) col.uniqueKeys := hkv
        exact aset_mem _ _ _ kv hkv'
    · rw [if_neg h]
      exact ⟨fun t ht => Or.inl ht, fun kv hkv => Or.inl hkv⟩
  | none =>
    rw [addCore_eq_fresh col s halk]
    constructor
    · intro t ht
      have ht' : t ∈ col.states ++ [stamped col s] := ht
      cases List.mem_append.mp ht' with
      | inl h1 => exact Or.inl h1
      | inr h2 => exact Or.inr (List.mem_singleton.mp h2)
    · intro kv hkv
      have hkv' : kv ∈ col.uniqueKeys ++ [(stateKey s, stamped col s)] := hkv
      cases List.mem_append.mp hkv' with
      | inl h1 => exact Or.inl h1
      | inr h2 =>
        right
        rw [List.mem_singleton.mp h2]

theorem add_le (mp : Nat) (col : ECColumn) (s : ECState)
    (hmp : col.maxPenalty = some mp)
    (hs : ∀ t ∈ col.states, t.penalty ≤ mp)
    (hu : ∀ kv ∈ col.uniqueKeys, kv.2.penalty ≤ mp) :
    (∀ t ∈ (ECColumn.add col s).states, t.penalty ≤ mp) ∧
    (∀ kv ∈ (ECColumn.add col s).uniqueKeys, kv.2.penalty ≤ mp) := by
  rw [add_eq_some col s mp hmp]
  by_cases h : s.penalty > mp
  · rw [if_pos h]
    exact ⟨hs, hu⟩
  · rw [if_neg h]
    obtain ⟨hst, hun⟩ := addCore_cases col s
    constructor
    · intro t ht
      cases hst t ht with
      | inl h1 => exact hs t h1
      | inr h2 =>
        rw [h2]
        show s.penalty ≤ mp
        omega
    · intro kv hkv
      cases hun kv hkv with
      | inl h1 => exact hu kv h1
      | inr h2 =>
        rw [h2]
        show s.penalty ≤ mp
        omega

theorem foldl_add_le (mp : Nat) (ss : List ECState) :
    ∀ col : ECColumn, col.maxPenalty = some mp →
      (∀ t ∈ col.states, t.penalty ≤ mp) →
      (∀ kv ∈ col.uniqueKeys, kv.2.penalty ≤ mp) →
      (∀ t ∈ (ss.foldl ECColumn.add col).states, t.penalty ≤ mp) ∧
      (∀ kv ∈ (ss.foldl ECColumn.add col).uniqueKeys, kv.2.penalty ≤ mp) := by
  induction ss with
  | nil => intro col _ hs hu; exact ⟨hs, hu⟩
  | cons s rest ih =>
    intro col hmp hs hu
    obtain ⟨hs', hu'⟩ := add_le mp col s hmp hs hu
    exact ih (ECColumn.add col s) (by rw [add_maxPenalty, hmp]) hs' hu'

theorem add_keys_nodup (col : ECColumn) (s : ECState)
    (h : ((col.uniqueKeys).map Prod.fst).Nodup) :
    (((ECColumn.add col s).uniqueKeys).map Prod.fst).Nodup := by
  have hcore : (((addCore col s).uniqueKeys).map Prod.fst).Nodup := by
    cases halk : alookup (stateKey s) col.uniqueKeys with
    | some st0 =>
      rw [addCore_eq_found col s st0 halk]
      by_cases hp : st0.penalty > s.penalty
      · rw [if_pos hp]
        show ((aset (stateKey s) (stamped col s) col.uniqueKeys).map Prod.fst).Nodup
        rw [aset_keys_of_mem _ _ _ (by rw [halk]; rfl)]
        exact h
      · rw [if_neg hp]
        exact h
    | none =>
      rw [addCore_eq_fresh col s halk]
      show ((col.uniqueKeys ++ [(stateKey s, stamped col s)]).map Prod.fst).Nodup
      rw [List.map_append]
      simp only [List.map_cons, List.map_nil]
      rw [List.nodup_append]
      refine ⟨h, List.nodup_singleton _, ?_⟩
      intro k hk hk2
      rw [List.mem_singleton.mp hk2] at hk
      exact ((alookup_none_iff (stateKey s) col.uniqueKeys).mp halk) hk
  cases hmp : col.maxPenalty with
  | none => rw [add_eq_none col s hmp]; exact hcore
  | some mp =>
    rw [add_eq_some col s mp hmp]
    by_cases hp : s.penalty > mp
    · rw [if_pos hp]
      exact h
    · rw [if_neg hp]
      exact hcore

theorem foldl_add_keys_nodup (ss : List ECState) :
    ∀ col : ECColumn, ((col.uniqueKeys).map Prod.fst).Nodup →
      (((ss.foldl ECColumn.add col).uniqueKeys).map Prod.fst).Nodup := by
  induction ss with
  | nil => intro col h; exact h
  | cons s rest ih => intro col h; exact ih _ (add_keys_nodup col s h)

end EcRuntime

/-- C5: completing a child advances each waiting parent with the child's
penalty added; predicting a nullable nonterminal advances the parent with
the nullable penalty added. -/
theorem C5_penalty_propagation :
    (∀ (child : EcRuntime.ECState) (ss : List EcRuntime.ECState),
      List.Forall₂ (fun p c => c.penalty = p.penalty + child.penalty ∧ c.name = p.name ∧
          c.expr = p.expr ∧ c.dot = p.dot + 1 ∧ c.sCol = p.sCol)
        (ss.filter (fun st => decide (EcRuntime.at_dot st = some child.name)))
        (EcRuntime.completeCandidates ss child)) ∧
    (∀ (g : EcRuntime.Grammar) (eps : EcRuntime.NMap) (col : EcRuntime.ECColumn)
        (sym : Str) (state : EcRuntime.ECState) (pe : Nat),
      alookup sym eps = some pe →
      EcRuntime.predictOp g eps col sym state =
        (((alookup sym g).getD []).foldl
          (fun c alt => c.add (EcRuntime.ECState.mkInit sym alt 0 col.index)) col).add
          { state.advance with penalty := state.penalty + pe }) := by
  constructor
  · intro child ss
    rw [EcRuntime.completeCandidates, List.forall₂_map_right_iff, List.forall₂_same]
    intro st _
    exact ⟨rfl, rfl, rfl, rfl, rfl⟩
  · intro g eps col sym state pe h
    unfold EcRuntime.predictOp
    rw [h]
    simp only [Option.isSome_some, if_true, Option.getD_some]
    rfl

theorem C5_penalty_propagation_witness :
    List.Forall₂ (fun p c => c.penalty = p.penalty + c5child.penalty ∧ c.name = p.name ∧
        c.expr = p.expr ∧ c.dot = p.dot + 1 ∧ c.sCol = p.sCol)
      ([c5parent].filter (fun st => decide (EcRuntime.at_dot st = some c5child.name)))
      (EcRuntime.completeCandidates [c5parent] c5child) ∧
    EcRuntime.predictOp [] [(EcRuntime.emptySym, 1)]
        (EcRuntime.emptyColumn 0 none none) EcRuntime.emptySym c5parent =
      ((((alookup EcRuntime.emptySym ([] : EcRuntime.Grammar)).getD []).foldl
        (fun c alt => c.add (EcRuntime.ECState.mkInit EcRuntime.emptySym alt 0
          (EcRuntime.emptyColumn 0 none none).index)) (EcRuntime.emptyColumn 0 none none)).add
        { c5parent.advance with penalty := c5parent.penalty + 1 }) :=
  ⟨C5_penalty_propagation.1 c5child [c5parent],
   C5_penalty_propagation.2 [] [(EcRuntime.emptySym, 1)] (EcRuntime.emptyColumn 0 none none)
     EcRuntime.emptySym c5parent 1 rfl⟩

/-- C6: column states are de-duplicated by (name, rule, dot, startCol);
a colliding lower-penalty state replaces the stored one and is appended
to the scanning list. -/
theorem C6_dedup :
    (∀ (idx : Nat) (letter : Option Char) (mp : Option Nat) (ss : List EcRuntime.ECState),
      (((ss.foldl EcRuntime.ECColumn.add
        (EcRuntime.emptyColumn idx letter mp)).uniqueKeys).map Prod.fst).Nodup) ∧
    (∀ (col : EcRuntime.ECColumn) (s st0 : EcRuntime.ECState),
      alookup (EcRuntime.stateKey s) col.uniqueKeys = some st0 →
      st0.penalty > s.penalty →
      (∀ mp, col.maxPenalty = some mp → s.penalty ≤ mp) →
      EcRuntime.ECColumn.add col s =
        { col with
          uniqueKeys := aset (EcRuntime.stateKey s) (EcRuntime.stamped col s) col.uniqueKeys,
          states := col.states ++ [EcRuntime.stamped col s] }) := by
  constructor
  · intro idx letter mp ss
    apply EcRuntime.foldl_add_keys_nodup
    simp [EcRuntime.emptyColumn]
  · intro col s st0 halk hgt hnp
    cases hmp : col.maxPenalty with
    | none =>
      rw [EcRuntime.add_eq_none col s hmp, EcRuntime.addCore_eq_found col s st0 halk, if_pos hgt,
        hmp]
    | some mp =>
      rw [EcRuntime.add_eq_some col s mp hmp,
        if_neg (by have := hnp mp hmp; omega),
        EcRuntime.addCore_eq_found col s st0 halk, if_pos hgt, hmp]

theorem C6_dedup_witness :
    ((([c6new].foldl EcRuntime.ECColumn.add
      (EcRuntime.emptyColumn 0 none none)).uniqueKeys).map Prod.fst).Nodup ∧
    EcRuntime.ECColumn.add c6col c6new =
      { c6col with
        uniqueKeys := aset (EcRuntime.stateKey c6new) (EcRuntime.stamped c6col c6new) c6col.uniqueKeys,
        states := c6col.states ++ [EcRuntime.stamped c6col c6new] } :=
  ⟨C6_dedup.1 0 none none [c6new],
   C6_dedup.2 c6col c6new c6stored (by decide) (by decide)
     (fun mp h => Option.noConfusion h)⟩

/-- C7 counterexample: with no explicit argument and no environment
override, the effective penalty cap of `earley_correct` is 32, not 8:
`earley_correct` replaces the parser's own default 8 with
`int(os.getenv("LSTAR_MAX_PENALTY", "32"))` and retries with the caps
[32, 16, 1]. -/
theorem C7_counterexample :
    RepairerEc.earleyCorrectMaxPenalty none none = 32 ∧
    ¬ (RepairerEc.earleyCorrectMaxPenalty none none = 8) ∧
    RepairerEc.attemptsFor (RepairerEc.earleyCorrectMaxPenalty none none) = [32, 16, 1] := by
  decide

/-- C7 (amended): no state whose penalty exceeds the column's configured
cap is ever stored in a chart column built by repeated `ECColumn.add`,
but the cap defaults: the parser constructor alone defaults to 8, while
`earley_correct` — the path actually taken — defaults the cap to 32. -/
theorem C7_pruning_amended :
    (∀ (mp idx : Nat) (letter : Option Char) (ss : List EcRuntime.ECState),
      (∀ t ∈ ((ss.foldl EcRuntime.ECColumn.add
          (EcRuntime.emptyColumn idx letter (some mp))).states), t.penalty ≤ mp) ∧
      (∀ kv ∈ ((ss.foldl EcRuntime.ECColumn.add
          (EcRuntime.emptyColumn idx letter (some mp))).uniqueKeys), kv.2.penalty ≤ mp)) ∧
    RepairerEc.parserInitMaxPenalty none = 8 ∧
    RepairerEc.earleyCorrectMaxPenalty none none = 32 := by
  refine ⟨?_, rfl, rfl⟩
  intro mp idx letter ss
  exact EcRuntime.foldl_add_le mp ss (EcRuntime.emptyColumn idx letter (some mp)) rfl
    (fun t ht => absurd ht (List.not_mem_nil t))
    (fun kv hkv => absurd hkv (List.not_mem_nil kv))

theorem C7_pruning_amended_witness :
    ({ c7state with eCol := some 0 } : EcRuntime.ECState).penalty ≤ 2 :=
  (C7_pruning_amended.1 2 0 none [c7state]).1 { c7state with eCol := some 0 } (by decide)

theorem alookup_append_left {α β : Type} [DecidableEq α] (k : α) (m1 m2 : List (α × β))
    (h : (alookup k m1).isSome) :
    alookup k (m1 ++ m2) = alookup k m1 := by
  rw [Rpni.alookup_append]
  cases hl : alookup k m1 with
  | some v => rfl
  | none => rw [hl] at h; exact Bool.noConfusion h

theorem alookup_append_none {α β : Type} [DecidableEq α] (k : α) (m1 m2 : List (α × β))
    (h : alookup k (m1 ++ m2) = none) :
    alookup k m1 = none := by
  rw [Rpni.alookup_append] at h
  cases hl : alookup k m1 with
  | some v => rw [hl] at h; exact Option.noConfusion h
  | none => rfl

theorem alookup_isSome_of_mem {α β : Type} [DecidableEq α] (k : α) (m : List (α × β))
    (h : k ∈ m.map Prod.fst) : (alookup k m).isSome := by
  cases hl : alookup k m with
  | some v => rfl
  | none => exact absurd h ((alookup_none_iff k m).mp hl)

theorem aset_keys_of_not_mem {α β : Type} [DecidableEq α] (k : α) (v : β) (m : List (α × β))
    (h : alookup k m = none) :
    (aset k v m).map Prod.fst = m.map Prod.fst ++ [k] := by
  induction m with
  | nil => rfl
  | cons kv0 rest ih =>
    obtain ⟨a0, b0⟩ := kv0
    simp only [alookup] at h
    by_cases ha : a0 = k
    · rw [if_pos ha] at h
      exact Option.noConfusion h
    · rw [if_neg ha] at h
      simp only [aset, if_neg ha, List.map_cons, ih h, List.cons_append]

theorem mem_nodup_alookup {α β : Type} [DecidableEq α] (k : α) (v : β) (m : List (α × β))
    (hmem : (k, v) ∈ m) (hnd : (m.map Prod.fst).Nodup) :
    alookup k m = some v := by
  induction m with
  | nil => cases hmem
  | cons kv rest ih =>
    obtain ⟨a, b⟩ := kv
    simp only [List.map_cons, List.nodup_cons] at hnd
    cases List.mem_cons.mp hmem with
    | inl he =>
      have h1 : k = a := congrArg Prod.fst he
      have h2 : v = b := congrArg Prod.snd he
      simp only [alookup]
      rw [if_pos h1.symm, h2]
    | inr hm =>
      simp only [alookup]
      by_cases ha : a = k
      · subst ha
        exact absurd (List.mem_map_of_mem Prod.fst hm) hnd.1
      · rw [if_neg ha]
        exact ih hm hnd.2

namespace EcRuntime

theorem dictMerge_not_mem (d e : Grammar) (k : Str) (h : alookup k e = none) :
    alookup k (dictMerge d e) = alookup k d := by
  induction e generalizing d with
  | nil => rfl
  | cons kv rest ih =>
    obtain ⟨a, b⟩ := kv
    simp only [alookup] at h
    by_cases ha : a = k
    · rw [if_pos ha] at h
      exact Option.noConfusion h
    · rw [if_neg ha] at h
      show alookup k (dictMerge (aset a b d) rest) = alookup k d
      rw [ih (aset a b d) h, Rpni.alookup_aset]
      rw [if_neg (fun hh : k = a => ha hh.symm)]

theorem dictMerge_mem (d e : Grammar) (k : Str) (v : List (List Str))
    (hval : ∀ kv ∈ e, kv.1 = k → kv.2 = v) (hmem : k ∈ e.map Prod.fst) :
    alookup k (dictMerge d e) = some v := by
  induction e generalizing d with
  | nil => cases hmem
  | cons kv rest ih =>
    obtain ⟨a, b⟩ := kv
    show alookup k (dictMerge (aset a b d) rest) = some v
    by_cases hm : k ∈ rest.map Prod.fst
    · exact ih (aset a b d) (fun kv2 h2 he => hval kv2 (List.mem_cons_of_mem _ h2) he) hm
    · have ha : a = k := by
        have hmem2 : k ∈ a :: rest.map Prod.fst := by simpa using hmem
        cases List.mem_cons.mp hmem2 with
        | inl he => exact he.symm
        | inr hr => exact absurd hr hm
      have hb : b = v := hval (a, b) (List.mem_cons_self _ _) ha
      have hnone : alookup k rest = none := (alookup_none_iff k rest).mpr hm
      rw [dictMerge_not_mem _ _ _ hnone, Rpni.alookup_aset, if_pos ha.symm, hb]

theorem dictMerge_isSome (d e : Grammar) (k : Str)
    (h : (alookup k (dictMerge d e)).isSome) :
    (alookup k d).isSome ∨ k ∈ e.map Prod.fst := by
  induction e generalizing d with
  | nil => exact Or.inl h
  | cons kv rest ih =>
    obtain ⟨a, b⟩ := kv
    have h2 : (alookup k (dictMerge (aset a b d) rest)).isSome := h
    cases ih (aset a b d) h2 with
    | inl hs =>
      rw [Rpni.alookup_aset] at hs
      by_cases he : k = a
      · right
        simp [he]
      · rw [if_neg he] at hs
        exact Or.inl hs
    | inr hm => exact Or.inr (List.mem_cons_of_mem _ hm)

theorem dictMerge_keys_nodup (d e : Grammar) (h : (d.map Prod.fst).Nodup) :
    ((dictMerge d e).map Prod.fst).Nodup := by
  induction e generalizing d with
  | nil => exact h
  | cons kv rest ih =>
    apply ih
    cases hl : alookup kv.1 d with
    | some v =>
      rw [aset_keys_of_mem kv.1 kv.2 d (by rw [hl]; rfl)]
      exact h
    | none =>
      rw [aset_keys_of_not_mem kv.1 kv.2 d hl, List.nodup_append]
      refine ⟨h, List.nodup_singleton _, ?_⟩
      intro x hx hx2
      rw [List.mem_singleton.mp hx2] at hx
      exact ((alookup_none_iff kv.1 d).mp hl) hx

theorem plain_ne_any_one (k : Str) (hp : plainB k = true) : k ≠ Any_one := by
  intro he
  subst he
  simp [plainB, Any_one, List.isPrefixOf] at hp

theorem plain_ne_any_plus (k : Str) (hp : plainB k = true) : k ≠ Any_plus := by
  intro he
  subst he
  simp [plainB, Any_plus, List.isPrefixOf] at hp

theorem plain_ne_empty (k : Str) (hp : plainB k = true) : k ≠ emptySym := by
  intro he
  subst he
  simp [plainB, emptySym, List.isPrefixOf] at hp

theorem plain_ne_this_sym (k : Str) (hp : plainB k = true) : ∀ a, k ≠ This_sym a := by
  intro a he
  rw [he] at hp
  have hpre : List.isPrefixOf ['<', '$'] (This_sym a) = true := rfl
  rw [plainB, hpre] at hp
  simp at hp

theorem plain_ne_any_not (k : Str) (hp : plainB k = true) : ∀ a, k ≠ Any_not a := by
  intro a he
  rw [he] at hp
  have hpre : List.isPrefixOf ['<', '$'] (Any_not a) = true := rfl
  rw [plainB, hpre] at hp
  simp at hp

theorem plain_ne_cstart (k : Str) (hp : plainB k = true) : ∀ st, k ≠ corrupt_start st := by
  intro st he
  rw [he] at hp
  have hpre : List.isPrefixOf ['<', '@', '#'] (corrupt_start st) = true := rfl
  rw [plainB, hpre] at hp
  simp at hp

theorem this_sym_inj (a b : Str) (h : This_sym a = This_sym b) : a = b := by
  simp only [This_sym, List.cons.injEq, true_and] at h
  exact List.append_cancel_right h

theorem any_not_inj (a b : Str) (h : Any_not a = Any_not b) : a = b := by
  simp only [Any_not, List.cons.injEq, true_and] at h
  exact List.append_cancel_right h

theorem this_sym_ne_any_one (a : Str) : This_sym a ≠ Any_one := by
  intro h
  simp [This_sym, Any_one] at h

theorem this_sym_ne_any_plus (a : Str) : This_sym a ≠ Any_plus := by
  intro h
  simp [This_sym, Any_plus] at h

theorem this_sym_ne_empty (a : Str) : This_sym a ≠ emptySym := by
  intro h
  simp [This_sym, emptySym] at h

theorem this_sym_ne_any_not (a b : Str) : This_sym a ≠ Any_not b := by
  intro h
  simp [This_sym, Any_not] at h

theorem this_sym_ne_cstart (a st : Str) : This_sym a ≠ corrupt_start st := by
  intro h
  simp [This_sym, corrupt_start] at h

theorem any_not_ne_any_one (a : Str) : Any_not a ≠ Any_one := by
  intro h
  simp [Any_not, Any_one] at h

theorem any_not_ne_any_plus (a : Str) : Any_not a ≠ Any_plus := by
  intro h
  simp [Any_not, Any_plus] at h

theorem any_not_ne_empty (a : Str) : Any_not a ≠ emptySym := by
  intro h
  simp [Any_not, emptySym] at h

theorem any_not_ne_cstart (a st : Str) : Any_not a ≠ corrupt_start st := by
  intro h
  simp [Any_not, corrupt_start] at h

theorem any_one_ne_any_plus : Any_one ≠ Any_plus := by
  intro h
  simp [Any_one, Any_plus] at h

theorem any_one_ne_empty : Any_one ≠ emptySym := by
  intro h
  simp [Any_one, emptySym] at h

theorem any_one_ne_cstart (st : Str) : Any_one ≠ corrupt_start st := by
  intro h
  simp [Any_one, corrupt_start] at h

theorem any_plus_ne_empty : Any_plus ≠ emptySym := by
  intro h
  simp [Any_plus, emptySym] at h

theorem any_plus_ne_cstart (st : Str) : Any_plus ≠ corrupt_start st := by
  intro h
  simp [Any_plus, corrupt_start] at h

theorem empty_ne_cstart (st : Str) : emptySym ≠ corrupt_start st := by
  intro h
  simp [emptySym, corrupt_start] at h

end EcRuntime

theorem alookup_singleton_none {α β : Type} [DecidableEq α] (k a : α) (v : β) (h : k ≠ a) :
    alookup k [(a, v)] = none := by
  simp only [alookup]
  rw [if_neg (fun hh : a = k => h hh.symm)]

theorem alookup_singleton_self {α β : Type} [DecidableEq α] (a : α) (v : β) :
    alookup a [(a, v)] = some v := by
  simp [alookup]

namespace EcRuntime

theorem augment_fst (g : Grammar) (start : Str) (syms : List Str) :
    (augment_grammar_ex g start syms).1 =
    dictMerge (dictMerge (dictMerge (dictMerge (dictMerge (dictMerge (dictMerge
      (add_start start).1 g) (translate_terminals g)) matchAnySymG) matchAnySymPlusG)
      (matchASymG syms)) (matchAnySymExceptG syms)) matchEmptyG := rfl

theorem matchASymG_keys (syms : List Str) :
    (matchASymG syms).map Prod.fst = syms.map This_sym := by
  rw [matchASymG, List.map_map]
  rfl

theorem matchAnySymExceptG_keys (syms : List Str) :
    (matchAnySymExceptG syms).map Prod.fst = syms.map Any_not := by
  rw [matchAnySymExceptG, List.map_map]
  rfl

theorem alookup_matchASym_none (k : Str) (syms : List Str) (h : ∀ a, k ≠ This_sym a) :
    alookup k (matchASymG syms) = none := by
  apply (alookup_none_iff _ _).mpr
  rw [matchASymG_keys]
  intro hk
  obtain ⟨a, _, ha⟩ := List.mem_map.mp hk
  exact h a ha.symm

theorem alookup_matchExcept_none (k : Str) (syms : List Str) (h : ∀ a, k ≠ Any_not a) :
    alookup k (matchAnySymExceptG syms) = none := by
  apply (alookup_none_iff _ _).mpr
  rw [matchAnySymExceptG_keys]
  intro hk
  obtain ⟨a, _, ha⟩ := List.mem_map.mp hk
  exact h a ha.symm

theorem translate_terminals_keys (g : Grammar) :
    (translate_terminals g).map Prod.fst = g.map Prod.fst := by
  rw [translate_terminals, List.map_map]
  rfl

theorem alookup_translate (k : Str) (g : Grammar) :
    alookup k (translate_terminals g) =
      (alookup k g).map (fun alts => alts.map (fun alt => alt.map translate_terminal)) := by
  induction g with
  | nil => rfl
  | cons kv rest ih =>
    obtain ⟨a, alts⟩ := kv
    simp only [translate_terminals, List.map_cons, alookup] at *
    by_cases ha : a = k
    · rw [if_pos ha, if_pos ha]
      rfl
    · rw [if_neg ha, if_neg ha]
      exact ih

theorem alookup_plain_none_of_not_mem (k : Str) (g : Grammar)
    (_hplain : ∀ kv ∈ g, plainB kv.1 = true) (hshape : ∀ kv ∈ g, kv.1 ≠ k) :
    alookup k g = none := by
  apply (alookup_none_iff _ _).mpr
  intro hk
  obtain ⟨kv, hmem, hfst⟩ := List.mem_map.mp hk
  exact hshape kv hmem hfst

/-- Peel the five machinery dicts off a cover lookup, for a key that is
none of the machinery names. -/
theorem cover_lookup_base (g : Grammar) (start : Str) (syms : List Str) (k : Str)
    (h1 : k ≠ Any_one) (h2 : k ≠ Any_plus) (h3 : k ≠ emptySym)
    (h4 : ∀ a, k ≠ This_sym a) (h5 : ∀ a, k ≠ Any_not a) :
    alookup k (augment_grammar_ex g start syms).1 =
      alookup k (dictMerge (dictMerge (add_start start).1 g) (translate_terminals g)) := by
  rw [augment_fst,
    dictMerge_not_mem _ _ _ (show alookup k matchEmptyG = none from
      alookup_singleton_none k emptySym [[]] h3),
    dictMerge_not_mem _ _ _ (alookup_matchExcept_none k syms h5),
    dictMerge_not_mem _ _ _ (alookup_matchASym_none k syms h4),
    dictMerge_not_mem _ _ _ (show alookup k matchAnySymPlusG = none from
      alookup_singleton_none k Any_plus [[Any_one], [Any_plus, Any_one]] h2),
    dictMerge_not_mem _ _ _ (show alookup k matchAnySymG = none from
      alookup_singleton_none k Any_one [[Any_term]] h1)]

theorem cover_lookup_plain_some (g : Grammar) (start : Str) (syms : List Str) (k : Str)
    (alts : List (List Str))
    (hnd : (g.map Prod.fst).Nodup) (hp : plainB k = true) (hk : alookup k g = some alts) :
    alookup k (augment_grammar_ex g start syms).1 =
      some (alts.map (fun alt => alt.map translate_terminal)) := by
  rw [cover_lookup_base g start syms k (plain_ne_any_one k hp) (plain_ne_any_plus k hp)
    (plain_ne_empty k hp) (plain_ne_this_sym k hp) (plain_ne_any_not k hp)]
  apply dictMerge_mem
  · intro kv hkv hke
    have hl2 : alookup kv.1 (translate_terminals g) = some kv.2 := by
      apply mem_nodup_alookup _ _ _ hkv
      rw [translate_terminals_keys]
      exact hnd
    rw [hke, alookup_translate, hk] at hl2
    have hv := Option.some.inj hl2.symm
    exact hv
  · rw [translate_terminals_keys]
    by_contra hmem
    rw [(alookup_none_iff k g).mpr hmem] at hk
    exact Option.noConfusion hk

theorem cover_lookup_plain_none (g : Grammar) (start : Str) (syms : List Str) (k : Str)
    (_hplain : ∀ kv ∈ g, plainB kv.1 = true) (hp : plainB k = true)
    (hcs : k ≠ corrupt_start start) (hk : alookup k g = none) :
    alookup k (augment_grammar_ex g start syms).1 = none := by
  rw [cover_lookup_base g start syms k (plain_ne_any_one k hp) (plain_ne_any_plus k hp)
    (plain_ne_empty k hp) (plain_ne_this_sym k hp) (plain_ne_any_not k hp)]
  have htg : alookup k (translate_terminals g) = none := by
    rw [alookup_translate, hk]
    rfl
  rw [dictMerge_not_mem _ _ _ htg, dictMerge_not_mem _ _ _ hk]
  exact alookup_singleton_none k (corrupt_start start) [[start], [start, Any_plus]] hcs

theorem cover_lookup_cstart (g : Grammar) (start : Str) (syms : List Str)
    (hplain : ∀ kv ∈ g, plainB kv.1 = true) :
    alookup (corrupt_start start) (augment_grammar_ex g start syms).1 =
      some [[start], [start, Any_plus]] := by
  rw [cover_lookup_base g start syms (corrupt_start start)
    (fun h => any_one_ne_cstart start h.symm) (fun h => any_plus_ne_cstart start h.symm)
    (fun h => empty_ne_cstart start h.symm) (fun a h => this_sym_ne_cstart a start h.symm)
    (fun a h => any_not_ne_cstart a start h.symm)]
  have hne : ∀ kv ∈ g, kv.1 ≠ corrupt_start start := fun kv hkv =>
    plain_ne_cstart kv.1 (hplain kv hkv) start
  have htg : alookup (corrupt_start start) (translate_terminals g) = none := by
    rw [alookup_translate, alookup_plain_none_of_not_mem _ g hplain hne]
    rfl
  rw [dictMerge_not_mem _ _ _ htg,
    dictMerge_not_mem _ _ _ (alookup_plain_none_of_not_mem _ g hplain hne)]
  exact alookup_singleton_self (corrupt_start start) [[start], [start, Any_plus]]

theorem cover_lookup_empty (g : Grammar) (start : Str) (syms : List Str) :
    alookup emptySym (augment_grammar_ex g start syms).1 = some [[]] := by
  rw [augment_fst]
  apply dictMerge_mem
  · intro kv hkv _
    rw [List.mem_singleton.mp hkv]
  · simp [matchEmptyG]

theorem cover_lookup_any_not (g : Grammar) (start : Str) (syms : List Str) (a : Str)
    (ha : a ∈ syms) :
    alookup (Any_not a) (augment_grammar_ex g start syms).1 = some [[Any_not_term a]] := by
  rw [augment_fst,
    dictMerge_not_mem _ _ _ (show alookup (Any_not a) matchEmptyG = none from
      alookup_singleton_none _ emptySym [[]] (any_not_ne_empty a))]
  apply dictMerge_mem
  · intro kv hkv hke
    obtain ⟨b, _, hb⟩ := List.mem_map.mp hkv
    rw [← hb] at hke ⊢
    rw [any_not_inj b a hke]
  · rw [matchAnySymExceptG_keys]
    exact List.mem_map_of_mem Any_not ha

theorem cover_lookup_this_sym (g : Grammar) (start : Str) (syms : List Str) (a : Str)
    (ha : a ∈ syms) :
    alookup (This_sym a) (augment_grammar_ex g start syms).1 =
      some [[a], [Any_plus, a], [emptySym], [Any_not a]] := by
  rw [augment_fst,
    dictMerge_not_mem _ _ _ (show alookup (This_sym a) matchEmptyG = none from
      alookup_singleton_none _ emptySym [[]] (this_sym_ne_empty a)),
    dictMerge_not_mem _ _ _ (alookup_matchExcept_none _ syms (fun b => this_sym_ne_any_not a b))]
  apply dictMerge_mem
  · intro kv hkv hke
    obtain ⟨b, _, hb⟩ := List.mem_map.mp hkv
    rw [← hb] at hke ⊢
    rw [this_sym_inj b a hke]
  · rw [matchASymG_keys]
    exact List.mem_map_of_mem This_sym ha

theorem cover_lookup_any_plus (g : Grammar) (start : Str) (syms : List Str) :
    alookup Any_plus (augment_grammar_ex g start syms).1 =
      some [[Any_one], [Any_plus, Any_one]] := by
  rw [augment_fst,
    dictMerge_not_mem _ _ _ (show alookup Any_plus matchEmptyG = none from
      alookup_singleton_none _ emptySym [[]] any_plus_ne_empty),
    dictMerge_not_mem _ _ _ (alookup_matchExcept_none _ syms
      (fun b h => any_not_ne_any_plus b h.symm)),
    dictMerge_not_mem _ _ _ (alookup_matchASym_none _ syms
      (fun b h => this_sym_ne_any_plus b h.symm))]
  apply dictMerge_mem
  · intro kv hkv _
    rw [List.mem_singleton.mp hkv]
  · simp [matchAnySymPlusG]

theorem cover_lookup_any_one (g : Grammar) (start : Str) (syms : List Str) :
    alookup Any_one (augment_grammar_ex g start syms).1 = some [[Any_term]] := by
  rw [augment_fst,
    dictMerge_not_mem _ _ _ (show alookup Any_one matchEmptyG = none from
      alookup_singleton_none _ emptySym [[]] any_one_ne_empty),
    dictMerge_not_mem _ _ _ (alookup_matchExcept_none _ syms
      (fun b h => any_not_ne_any_one b h.symm)),
    dictMerge_not_mem _ _ _ (alookup_matchASym_none _ syms
      (fun b h => this_sym_ne_any_one b h.symm)),
    dictMerge_not_mem _ _ _ (show alookup Any_one matchAnySymPlusG = none from
      alookup_singleton_none _ Any_plus [[Any_one], [Any_plus, Any_one]] any_one_ne_any_plus)]
  apply dictMerge_mem
  · intro kv hkv _
    rw [List.mem_singleton.mp hkv]
  · simp [matchAnySymG]

/-- Every key of the covering grammar is the corrupt start, a key of `g`,
or one of the machinery names. -/
theorem cover_keys (g : Grammar) (start : Str) (syms : List Str) (k : Str)
    (h : (alookup k (augment_grammar_ex g start syms).1).isSome) :
    k = corrupt_start start ∨ k ∈ g.map Prod.fst ∨ k = Any_one ∨ k = Any_plus ∨
      k = emptySym ∨ (∃ a ∈ syms, k = This_sym a) ∨ (∃ a ∈ syms, k = Any_not a) := by
  rw [augment_fst] at h
  rcases dictMerge_isSome _ _ _ h with h | hm
  · rcases dictMerge_isSome _ _ _ h with h | hm
    · rcases dictMerge_isSome _ _ _ h with h | hm
      · rcases dictMerge_isSome _ _ _ h with h | hm
        · rcases dictMerge_isSome _ _ _ h with h | hm
          · rcases dictMerge_isSome _ _ _ h with h | hm
            · rcases dictMerge_isSome _ _ _ h with h | hm
              · left
                cases hl : alookup k (add_start start).1 with
                | some v =>
                  rcases (List.mem_cons.mp ((alookup_none_iff k _).not_left.mp (by rw [hl]; simp))) with h1 | h1
                  · exact h1
                  · cases h1
                | none => rw [hl] at h; exact Bool.noConfusion h
              · exact Or.inr (Or.inl hm)
            · rw [translate_terminals_keys] at hm
              exact Or.inr (Or.inl hm)
          · rcases List.mem_map.mp hm with ⟨kv, hkv, hk2⟩
            rw [List.mem_singleton.mp hkv] at hk2
            exact Or.inr (Or.inr (Or.inl hk2.symm))
        · rcases List.mem_map.mp hm with ⟨kv, hkv, hk2⟩
          rw [List.mem_singleton.mp hkv] at hk2
          exact Or.inr (Or.inr (Or.inr (Or.inl hk2.symm)))
      · rw [matchASymG_keys] at hm
        rcases List.mem_map.mp hm with ⟨a, hma, hk2⟩
        exact Or.inr (Or.inr (Or.inr (Or.inr (Or.inr (Or.inl ⟨a, hma, hk2.symm⟩)))))
    · rw [matchAnySymExceptG_keys] at hm
      rcases List.mem_map.mp hm with ⟨a, hma, hk2⟩
      exact Or.inr (Or.inr (Or.inr (Or.inr (Or.inr (Or.inr ⟨a, hma, hk2.symm⟩)))))
  · rcases List.mem_map.mp hm with ⟨kv, hkv, hk2⟩
    rw [List.mem_singleton.mp hkv] at hk2
    exact Or.inr (Or.inr (Or.inr (Or.inr (Or.inl hk2.symm))))

theorem this_sym_concat (a : Str) : This_sym a = (('<' :: '$' :: '[' :: a) ++ [']']) ++ ['>'] := by
  simp [This_sym]

theorem is_nt_this_sym (a : Str) : is_nt (This_sym a) = true := by
  rw [is_nt]
  have h1 : (This_sym a).head? = some '<' := rfl
  have h2 : (This_sym a).getLast? = some '>' := by
    rw [this_sym_concat]
    exact List.getLast?_concat _
  rw [h1, h2]
  rfl

theorem corrupt_start_concat (st : Str) :
    corrupt_start st = ('<' :: '@' :: '#' :: ' ' :: (st.drop 1).dropLast) ++ ['>'] := by
  simp [corrupt_start]

theorem is_nt_cstart (st : Str) : is_nt (corrupt_start st) = true := by
  rw [is_nt]
  have h1 : (corrupt_start st).head? = some '<' := rfl
  have h2 : (corrupt_start st).getLast? = some '>' := by
    rw [corrupt_start_concat]
    exact List.getLast?_concat _
  rw [h1, h2]
  rfl

theorem this_sym_reverse (a : Str) :
    (This_sym a).reverse = '>' :: ']' :: (a.reverse ++ ['[', '$', '<']) := by
  simp [This_sym]

theorem extractExpected_this_sym (a : Str) : extractExpected (This_sym a) = a := by
  have h1 : firstIdx '[' (This_sym a) = 2 := rfl
  have h2 : firstIdx ']' ((This_sym a).reverse) = 1 := by
    rw [this_sym_reverse]
    rfl
  have h3 : (This_sym a).length = a.length + 5 := by
    simp [This_sym]
  have h4 : lastIdx ']' (This_sym a) = a.length + 3 := by
    rw [lastIdx, h2, h3]
    omega
  have h5 : (This_sym a).drop 3 = a ++ [']', '>'] := rfl
  rw [extractExpected, h1, h4, show (2 : Nat) + 1 = 3 from rfl, h5,
    show a.length + 3 - 3 = a.length from by omega]
  exact List.take_left a _

theorem startsWithThis_this_sym (a : Str) : startsWithThis (This_sym a) = true := by
  rw [startsWithThis]
  exact List.isPrefixOf_iff_prefix.mpr ⟨a ++ [']', '>'], rfl⟩

theorem endsWithRB_this_sym (a : Str) : endsWithRB (This_sym a) = true := by
  rw [endsWithRB, List.isSuffixOf]
  refine List.isPrefixOf_iff_prefix.mpr ⟨a.reverse ++ ['[', '$', '<'], ?_⟩
  rw [this_sym_reverse]
  rfl

theorem projectT_this_sym (a : Str) (children : PForest) :
    projectT (.node (This_sym a) children) = a := by
  rw [projectT, if_pos (is_nt_this_sym a),
    if_pos (by rw [startsWithThis_this_sym, endsWithRB_this_sym]; rfl)]
  exact extractExpected_this_sym a

theorem prefix_trans_dollar (k : Str) (h : List.isPrefixOf ['<', '$', '['] k = true) :
    List.isPrefixOf ['<', '$'] k = true := by
  rw [List.isPrefixOf_iff_prefix] at *
  exact List.IsPrefix.trans ⟨['['], rfl⟩ h

theorem prefix_trans_bang (k : Str) (h : List.isPrefixOf ['<', '$', '!', '['] k = true) :
    List.isPrefixOf ['<', '$'] k = true := by
  rw [List.isPrefixOf_iff_prefix] at *
  exact List.IsPrefix.trans ⟨['!', '['], rfl⟩ h

theorem projectT_plain (k : Str) (children : PForest) (hp : plainB k = true) :
    projectT (.node k children) = projectF children := by
  have hnt : is_nt k = true := by
    rw [plainB] at hp
    exact (Bool.and_eq_true _ _ |>.mp ((Bool.and_eq_true _ _ |>.mp hp).1)).1
  have hpre : List.isPrefixOf ['<', '$'] k = false := by
    rw [plainB] at hp
    have h := (Bool.and_eq_true _ _ |>.mp ((Bool.and_eq_true _ _ |>.mp hp).1)).2
    cases hh : List.isPrefixOf ['<', '$'] k
    · rfl
    · rw [hh] at h; exact Bool.noConfusion h
  have h1 : startsWithThis k = false := by
    rw [startsWithThis]
    cases hh : List.isPrefixOf ['<', '$', '['] k
    · rfl
    · rw [prefix_trans_dollar k hh] at hpre; exact Bool.noConfusion hpre
  have h2 : List.isPrefixOf ['<', '$', '!', '['] k = false := by
    cases hh : List.isPrefixOf ['<', '$', '!', '['] k
    · rfl
    · rw [prefix_trans_bang k hh] at hpre; exact Bool.noConfusion hpre
  rw [projectT, if_pos hnt, h1, Bool.false_and, if_neg Bool.false_ne_true, if_neg ?_]
  intro hor
  simp only [h2, Bool.or_false, Bool.or_eq_true, decide_eq_true_eq] at hor
  cases hor with
  | inl hh => exact plain_ne_any_plus k hp hh
  | inr hh => exact plain_ne_empty k hp hh

theorem projectT_cstart (st : Str) (children : PForest) :
    projectT (.node (corrupt_start st) children) = projectF children := by
  have h1 : startsWithThis (corrupt_start st) = false := rfl
  have h2 : List.isPrefixOf ['<', '$', '!', '['] (corrupt_start st) = false := rfl
  rw [projectT, if_pos (is_nt_cstart st), h1, Bool.false_and,
    if_neg Bool.false_ne_true, if_neg ?_]
  intro hor
  simp only [h2, Bool.or_false, Bool.or_eq_true, decide_eq_true_eq] at hor
  cases hor with
  | inl hh => exact any_plus_ne_cstart st hh.symm
  | inr hh => exact empty_ne_cstart st hh.symm

theorem projectT_drop (k : Str) (children : PForest)
    (h : k = Any_plus ∨ k = emptySym ∨ List.isPrefixOf ['<', '$', '!', '['] k = true)
    (hnt : is_nt k = true) :
    projectT (.node k children) = [] := by
  have hsw : startsWithThis k = false := by
    rw [startsWithThis]
    cases hh : List.isPrefixOf ['<', '$', '['] k
    · rfl
    · exfalso
      rcases h with h | h | h
      · rw [h] at hh
        have hh2 : List.isPrefixOf ['<', '$', '['] Any_plus = false := by decide
        rw [hh2] at hh
        exact Bool.noConfusion hh
      · rw [h] at hh
        have hh2 : List.isPrefixOf ['<', '$', '['] emptySym = false := by decide
        rw [hh2] at hh
        exact Bool.noConfusion hh
      · rw [List.isPrefixOf_iff_prefix] at hh h
        obtain ⟨r1, hr1⟩ := hh
        obtain ⟨r2, hr2⟩ := h
        rw [← hr2] at hr1
        simp at hr1
  have hc : (decide (k = Any_plus) || decide (k = emptySym) ||
      List.isPrefixOf ['<', '$', '!', '['] k) = true := by
    rcases h with h | h | h
    · simp [h]
    · simp [h]
    · simp [h]
  rw [projectT, if_pos hnt, hsw, Bool.false_and, if_neg Bool.false_ne_true, if_pos hc]

theorem alookup_mem {α β : Type} [DecidableEq α] (k : α) (m : List (α × β)) (v : β)
    (h : alookup k m = some v) : (k, v) ∈ m := by
  induction m with
  | nil => exact Option.noConfusion h
  | cons kv rest ih =>
    obtain ⟨a, b⟩ := kv
    rw [alookup] at h
    by_cases he : a = k
    · rw [if_pos he] at h
      have hv := Option.some.inj h
      subst he
      subst hv
      exact List.mem_cons_self _ _
    · rw [if_neg he] at h
      exact List.mem_cons_of_mem _ (ih h)

theorem plainB_is_nt (s : Str) (h : plainB s = true) : is_nt s = true := by
  rw [plainB] at h
  exact (Bool.and_eq_true _ _ |>.mp ((Bool.and_eq_true _ _ |>.mp h).1)).1

/-- Soundness of the projection, by strong induction on tree size: a valid
covering-grammar tree rooted at a plain base nonterminal projects to a
string derivable from that nonterminal in the base grammar, and a valid
forest matching a translated alternative projects to a string derivable
from the untranslated alternative. -/
theorem projSound_main (g : Grammar) (start : Str) (syms : List Str)
    (hnd : (g.map Prod.fst).Nodup)
    (hplain : ∀ kv ∈ g, plainB kv.1 = true)
    (hrhs : ∀ kv ∈ g, ∀ alt ∈ kv.2, ∀ s ∈ alt, is_nt s = true → plainB s = true) :
    ∀ n : Nat,
      (∀ t : PTree, sizeT t ≤ n → ∀ k children, t = PTree.node k children →
        plainB k = true → TreeOK (augment_grammar_ex g start syms).1 t →
        Derives g k (projectT t)) ∧
      (∀ ts : PForest, ∀ ss alt : List Str, sizeF ts ≤ n →
        ss = alt.map translate_terminal →
        (∀ s ∈ alt, is_nt s = true → plainB s = true) →
        ForestOK (augment_grammar_ex g start syms).1 ss ts →
        DerivesSeq g alt (projectF ts)) := by
  intro n
  induction n using Nat.strong_induction_on with
  | _ n IH =>
  constructor
  · intro t hsize k children hteq hp htok
    subst hteq
    cases htok with
    | node _k _ch alts' alt' hl halt' hfok =>
      cases hg : alookup k g with
      | none =>
        exfalso
        rw [cover_lookup_plain_none g start syms k hplain hp
          (plain_ne_cstart k hp start) hg] at hl
        exact Option.noConfusion hl
      | some alts =>
        rw [cover_lookup_plain_some g start syms k alts hnd hp hg] at hl
        have he := Option.some.inj hl
        rw [← he] at halt'
        obtain ⟨alt, halt, hfa⟩ := List.mem_map.mp halt'
        have hlt : sizeF children < n := by
          have hs := hsize
          simp only [sizeT] at hs
          omega
        have hsym : ∀ s ∈ alt, is_nt s = true → plainB s = true :=
          hrhs (k, alts) (alookup_mem k g alts hg) alt halt
        have hfok2 : ForestOK (augment_grammar_ex g start syms).1
            (alt.map translate_terminal) children := by
          rw [hfa]
          exact hfok
        have hds := (IH (sizeF children) hlt).2 children _ alt le_rfl rfl hsym hfok2
        rw [projectT_plain k children hp]
        exact Derives.mk k alts alt _ hg halt hds
  · intro ts ss alt hsize heq hsym hfok
    cases hfok with
    | nil =>
      have halt : alt = [] := by
        cases alt with
        | nil => rfl
        | cons a r => simp at heq
      subst halt
      simp only [projectF]
      exact DerivesSeq.nil
    | consNT s' t' ss' ts' hnt hname htok hfok' =>
      cases alt with
      | nil => simp at heq
      | cons s rest =>
        simp only [List.map] at heq
        obtain ⟨hs', hss'⟩ := List.cons.inj heq
        obtain ⟨k', ch'⟩ := t'
        have hlt1 : sizeT (PTree.node k' ch') < n := by
          have hsz := hsize
          simp only [sizeF] at hsz
          omega
        have hlt2 : sizeF ts' < n := by
          have hsz := hsize
          simp only [sizeF] at hsz
          omega
        have hrest := (IH (sizeF ts') hlt2).2 ts' ss' rest le_rfl hss'
          (fun s2 hs2 => hsym s2 (List.mem_cons_of_mem _ hs2)) hfok'
        by_cases hs : is_nt s = true
        · have hk' : k' = s := by
            have hh : nameT (PTree.node k' ch') = s' := hname
            rw [nameT] at hh
            rw [hh, hs', translate_terminal, if_pos hs]
          rw [hk'] at htok
          have hps : plainB s = true := hsym s (List.mem_cons_self _ _) hs
          have hlt1s : sizeT (PTree.node s ch') < n := by
            rw [← hk']
            exact hlt1
          have hder := (IH (sizeT (PTree.node s ch')) hlt1s).1 _ le_rfl s ch' rfl hps htok
          simp only [projectF, hk']
          exact DerivesSeq.consN s (projectT (PTree.node s ch')) rest (projectF ts')
            hs hder hrest
        · have hsf : is_nt s = false := by
            cases hh : is_nt s
            · rfl
            · exact absurd hh hs
          have hk' : k' = This_sym s := by
            have hh : nameT (PTree.node k' ch') = s' := hname
            rw [nameT] at hh
            rw [hh, hs', translate_terminal, if_neg hs]
          have hproj : projectT (PTree.node k' ch') = s := by
            rw [hk']
            exact projectT_this_sym s ch'
          simp only [projectF, hproj]
          exact DerivesSeq.consT s rest (projectF ts') hsf hrest
    | consTerm s' t' ss' ts' hnf htm hfok' =>
      cases alt with
      | nil => simp at heq
      | cons s rest =>
        exfalso
        simp only [List.map] at heq
        obtain ⟨hs', hss'⟩ := List.cons.inj heq
        rw [hs'] at hnf
        by_cases hs : is_nt s = true
        · rw [translate_terminal, if_pos hs] at hnf
          rw [hnf] at hs
          exact Bool.noConfusion hs
        · rw [translate_terminal, if_neg hs, is_nt_this_sym] at hnf
          exact Bool.noConfusion hnf

/-- C2: for every parse tree valid against the covering grammar built by
`augment_grammar_ex` from a plain right-linear base grammar and rooted at
the corrupt start symbol, the projection `tree_to_str_fix_ex` — which
emits the expected terminal of every `<$[a]>` node regardless of which
corrective alternative fired and drops the `<$.>`, `<$.+>`, `<$>`,
`<$![a]>` machinery — yields a string derivable from the original start
symbol in the original grammar. -/
theorem C2_projection_soundness (g : Grammar) (start : Str) (syms : List Str)
    (hnd : (g.map Prod.fst).Nodup)
    (hplain : ∀ kv ∈ g, plainB kv.1 = true)
    (hrhs : ∀ kv ∈ g, ∀ alt ∈ kv.2, ∀ s ∈ alt, is_nt s = true → plainB s = true)
    (hstart : plainB start = true)
    (children : PForest)
    (h : TreeOK (augment_grammar_ex g start syms).1
      (PTree.node (corrupt_start start) children)) :
    Derives g start (projectT (PTree.node (corrupt_start start) children)) := by
  have hmain := projSound_main g start syms hnd hplain hrhs
  cases h with
  | node _k _ch alts' alt' hl halt' hfok =>
    rw [cover_lookup_cstart g start syms hplain] at hl
    have he := Option.some.inj hl
    rw [← he] at halt'
    rw [projectT_cstart start children]
    rcases List.mem_cons.mp halt' with h1 | h1
    · subst h1
      cases hfok with
      | consNT _s t1 _ss ts1 hnt hname htok hfok1 =>
        cases hfok1
        obtain ⟨k1, ch1⟩ := t1
        have hk1 : k1 = start := hname
        rw [hk1] at htok
        have hder := (hmain (sizeT (PTree.node start ch1))).1 _ le_rfl start ch1 rfl
          hstart htok
        simp only [projectF, List.append_nil, hk1]
        exact hder
      | consTerm _s t1 _ss ts1 hnf htm hfok1 =>
        exfalso
        rw [plainB_is_nt start hstart] at hnf
        exact Bool.noConfusion hnf
    · rw [List.mem_singleton] at h1
      subst h1
      cases hfok with
      | consNT _s t1 _ss ts1 hnt hname htok hfok1 =>
        cases hfok1 with
        | consNT _s2 t2 _ss2 ts2 hnt2 hname2 htok2 hfok2 =>
          cases hfok2
          obtain ⟨k1, ch1⟩ := t1
          obtain ⟨k2, ch2⟩ := t2
          have hk1 : k1 = start := hname
          have hk2 : k2 = Any_plus := hname2
          rw [hk1] at htok
          have hder := (hmain (sizeT (PTree.node start ch1))).1 _ le_rfl start ch1 rfl
            hstart htok
          have hp2 : projectT (PTree.node k2 ch2) = [] := by
            rw [hk2]
            exact projectT_drop Any_plus ch2 (Or.inl rfl) (by decide)
          simp only [projectF, hp2, List.append_nil, hk1]
          exact hder
        | consTerm _s2 t2 _ss2 ts2 hnf2 htm2 hfok2 =>
          exfalso
          have hap : is_nt Any_plus = true := by decide
          rw [hap] at hnf2
          exact Bool.noConfusion hnf2
      | consTerm _s t1 _ss ts1 hnf htm hfok1 =>
        exfalso
        rw [plainB_is_nt start hstart] at hnf
        exact Bool.noConfusion hnf

theorem C2_projection_soundness_witness :
    Derives c2g c2start (projectT (PTree.node (corrupt_start c2start) c2forest)) := by
  have hchild : TreeOK (augment_grammar_ex c2g c2start []).1 c2child :=
    TreeOK.node c2start PForest.nil [[]] [] (by decide) (by decide) ForestOK.nil
  have hroot : TreeOK (augment_grammar_ex c2g c2start []).1
      (PTree.node (corrupt_start c2start) c2forest) :=
    TreeOK.node (corrupt_start c2start) c2forest [[c2start], [c2start, Any_plus]] [c2start]
      (by decide) (by decide)
      (ForestOK.consNT c2start c2child [] PForest.nil (by decide) rfl hchild ForestOK.nil)
  exact C2_projection_soundness c2g c2start [] (by decide) (by decide) (by decide)
    (by decide) c2forest hroot

theorem nullablePass_eq_foldl (nxt : Str) (pnxt : Nat) (gcur : GCur) (nk0 : NMap) :
    nullablePass nxt pnxt gcur nk0 = gcur.foldl (passStep nxt pnxt) (nk0, [], []) := rfl

/-- Behaviour of one pass: the nullable map and worklist only grow, the new
worklist entries are exactly the keys of the new nullable entries, the next
`g_cur`'s keys come from the old one, and each fresh nullable key pays for
itself in the measure `|new| + #(still-missing keys)`. -/
theorem passFold_spec (nxt : Str) (pnxt : Nat) :
    ∀ (l : GCur) (nk : NMap) (app : List Str) (g0 : GCur),
    ∃ dn : NMap, ∃ dg : GCur,
      List.foldl (passStep nxt pnxt) (nk, app, g0) l =
        (nk ++ dn, app ++ dn.map Prod.fst, g0 ++ dg) ∧
      (dg.map Prod.fst).Sublist (l.map Prod.fst) ∧
      dn.length + (dg.map Prod.fst).countP (fun k => (alookup k (nk ++ dn)).isNone)
        ≤ (l.map Prod.fst).countP (fun k => (alookup k nk).isNone) := by
  intro l
  induction l with
  | nil =>
    intro nk app g0
    exact ⟨[], [], by simp, by simp, by simp⟩
  | cons kv rest ih =>
    intro nk app g0
    obtain ⟨k, alts⟩ := kv
    rw [List.foldl_cons]
    by_cases hki : (alookup k nk).isSome = true
    · have hstep : passStep nxt pnxt (nk, app, g0) (k, alts) = (nk, app, g0) := by
        unfold passStep
        rw [if_pos hki]
      rw [hstep]
      obtain ⟨dn, dg, he, hsub, hle⟩ := ih nk app g0
      refine ⟨dn, dg, he, hsub.trans (List.sublist_cons_self _ _), ?_⟩
      have hkn : (alookup k nk).isNone = false := by
        cases ho : alookup k nk with
        | none => rw [ho] at hki; exact absurd hki (by simp)
        | some v => rfl
      simp only [List.map_cons, List.countP_cons, hkn]
      simpa using hle
    · have hnone : alookup k nk = none := Option.not_isSome_iff_eq_none.mp hki
      cases hp : (processAlts nxt pnxt alts).2 with
      | some p =>
        have hstep : passStep nxt pnxt (nk, app, g0) (k, alts) =
            (nk ++ [(k, p)], app ++ [k],
             if (processAlts nxt pnxt alts).1.isEmpty then g0
             else g0 ++ [(k, (processAlts nxt pnxt alts).1)]) := by
          simp only [passStep, hnone, Option.isSome_none, Bool.false_eq_true, if_false, hp]
        rw [hstep]
        obtain ⟨dn', dg', he, hsub, hle⟩ :=
          ih (nk ++ [(k, p)]) (app ++ [k])
            (if (processAlts nxt pnxt alts).1.isEmpty then g0
             else g0 ++ [(k, (processAlts nxt pnxt alts).1)])
        have hmono : (rest.map Prod.fst).countP
              (fun k2 => (alookup k2 (nk ++ [(k, p)])).isNone) ≤
            (rest.map Prod.fst).countP (fun k2 => (alookup k2 nk).isNone) := by
          apply List.countP_mono_left
          intro a _ ha
          cases ho : alookup a nk with
          | none => rfl
          | some v =>
            rw [alookup_append_left a nk [(k, p)] (by rw [ho]; rfl), ho] at ha
            exact Bool.noConfusion ha
        have hin : alookup k (nk ++ [(k, p)]) = some p := by
          rw [Rpni.alookup_append, hnone]
          simp [alookup]
        have hself : alookup k ((nk ++ [(k, p)]) ++ dn') = some p := by
          rw [alookup_append_left k (nk ++ [(k, p)]) dn' (by rw [hin]; rfl), hin]
        by_cases hemp : (processAlts nxt pnxt alts).1.isEmpty = true
        · refine ⟨(k, p) :: dn', dg', ?_, hsub.trans (List.sublist_cons_self _ _), ?_⟩
          · rw [he, if_pos hemp]
            simp
          · have hassoc : nk ++ (k, p) :: dn' = (nk ++ [(k, p)]) ++ dn' := by simp
            simp only [List.map_cons, List.countP_cons, hnone, Option.isNone_none,
              eq_self_iff_true, if_true, List.length_cons, hassoc]
            omega
        · refine ⟨(k, p) :: dn',
            (k, (processAlts nxt pnxt alts).1) :: dg', ?_, ?_, ?_⟩
          · rw [he, if_neg hemp]
            simp
          · simpa using List.Sublist.cons₂ k hsub
          · have hassoc : nk ++ (k, p) :: dn' = (nk ++ [(k, p)]) ++ dn' := by simp
            simp only [List.map_cons, List.countP_cons, hnone, hassoc, hself,
              Option.isNone_none, Option.isNone_some, eq_self_iff_true, if_true,
              Bool.false_eq_true, if_false, List.length_cons]
            omega
      | none =>
        have hstep : passStep nxt pnxt (nk, app, g0) (k, alts) =
            (nk, app,
             if (processAlts nxt pnxt alts).1.isEmpty then g0
             else g0 ++ [(k, (processAlts nxt pnxt alts).1)]) := by
          simp only [passStep, hnone, Option.isSome_none, Bool.false_eq_true, if_false, hp]
        rw [hstep]
        obtain ⟨dn', dg', he, hsub, hle⟩ :=
          ih nk app
            (if (processAlts nxt pnxt alts).1.isEmpty then g0
             else g0 ++ [(k, (processAlts nxt pnxt alts).1)])
        by_cases hemp : (processAlts nxt pnxt alts).1.isEmpty = true
        · refine ⟨dn', dg', ?_, hsub.trans (List.sublist_cons_self _ _), ?_⟩
          · rw [he, if_pos hemp]
          · simp only [List.map_cons, List.countP_cons, hnone, Option.isNone_none,
              eq_self_iff_true, if_true]
            omega
        · refine ⟨dn', (k, (processAlts nxt pnxt alts).1) :: dg', ?_, ?_, ?_⟩
          · rw [he, if_neg hemp]
            simp
          · simpa using List.Sublist.cons₂ k hsub
          · simp only [List.map_cons, List.countP_cons, hnone, Option.isNone_none,
              eq_self_iff_true, if_true]
            have hble : (if (alookup k (nk ++ dn')).isNone = true then 1 else 0) ≤ 1 := by
              by_cases hb : (alookup k (nk ++ dn')).isNone = true
              · rw [if_pos hb]
              · rw [if_neg hb]
                omega
            omega

theorem nullableGCur0_keys (g : Grammar) :
    (nullableGCur0 g).map Prod.fst = g.map Prod.fst := by
  rw [nullableGCur0, rem_terminals]
  induction g with
  | nil => rfl
  | cons kv rest ih => simp [ih]

/-- Fuel sufficiency for the `while unprocessed` loop: the number of pops is
bounded by the worklist length plus the number of `g_cur` keys not yet
nullable, since every appended key comes with a fresh nullable entry. -/
theorem nullableLoop_isSome :
    ∀ (fuel : Nat) (nk : NMap) (unproc : List Str) (gcur : GCur),
    (gcur.map Prod.fst).Nodup →
    unproc.length + (gcur.map Prod.fst).countP (fun k => (alookup k nk).isNone) ≤ fuel →
    (nullableLoop fuel nk unproc gcur).isSome := by
  intro fuel
  induction fuel with
  | zero =>
    intro nk unproc gcur _ hb
    cases unproc with
    | nil => rfl
    | cons x rest => simp at hb
  | succ f ih =>
    intro nk unproc gcur hnd hb
    cases unproc with
    | nil => rfl
    | cons nxt rest =>
      rw [nullableLoop]
      obtain ⟨dn, dg, he, hsub, hle⟩ :=
        passFold_spec nxt ((alookup nxt nk).getD 0) gcur nk [] []
      rw [nullablePass_eq_foldl, he]
      simp only [List.nil_append]
      apply ih
      · exact List.Nodup.sublist hsub hnd
      · have hb2 : rest.length + 1 +
            (gcur.map Prod.fst).countP (fun k => (alookup k nk).isNone) ≤ f + 1 := by
          simpa [List.length_cons] using hb
        have hlen : (rest ++ dn.map Prod.fst).length = rest.length + dn.length := by
          simp
        rw [hlen]
        omega

/-- C10: `nullable_ex` terminates on every finite grammar with distinct
keys (a Python dict always has distinct keys): a nonterminal enters the
worklist only together with its fresh `nullable_keys` entry and is never
re-appended afterwards, so the pops are bounded by the seed count plus the
number of grammar keys, and the fuel-bounded embedding returns a result. -/
theorem C10_nullable_terminates (g : Grammar) (hnd : (g.map Prod.fst).Nodup) :
    (nullable_ex g).isSome := by
  rw [nullable_ex]
  apply nullableLoop_isSome
  · rw [nullableGCur0_keys]
    exact hnd
  · have h1 : ((nullableInit g).map (fun kv => kv.1)).length = (nullableInit g).length := by
      simp
    have h2 : ((nullableGCur0 g).map Prod.fst).countP
        (fun k => (alookup k (nullableInit g)).isNone) ≤ g.length := by
      rw [nullableGCur0_keys]
      calc (g.map Prod.fst).countP (fun k => (alookup k (nullableInit g)).isNone)
          ≤ (g.map Prod.fst).length := List.countP_le_length _
        _ = g.length := List.length_map _ _
    rw [h1]
    omega

theorem C10_nullable_terminates_witness :
    (nullable_ex [(emptySym, [[]]), (Any_one, [[Any_term]])]).isSome :=
  C10_nullable_terminates [(emptySym, [[]]), (Any_one, [[Any_term]])] (by decide)

/-- One pass never makes a key with an empty alternative list nullable, and
keeps its `g_cur` entries (if any) empty. -/
theorem passFold_pres (nxt : Str) (pnxt : Nat) :
    ∀ (l : GCur) (st : NMap × List Str × GCur) (b : Str),
    alookup b st.1 = none →
    (∀ e ∈ st.2.2, e.1 = b → e.2 = ([] : GAlts)) →
    (∀ e ∈ l, e.1 = b → e.2 = ([] : GAlts)) →
    alookup b (List.foldl (passStep nxt pnxt) st l).1 = none ∧
    (∀ e ∈ (List.foldl (passStep nxt pnxt) st l).2.2, e.1 = b → e.2 = ([] : GAlts)) := by
  intro l
  induction l with
  | nil =>
    intro st b h1 h2 _
    exact ⟨h1, h2⟩
  | cons kv rest ih =>
    intro st b h1 h2 h3
    obtain ⟨k, alts⟩ := kv
    obtain ⟨nk, stapp, g0⟩ := st
    rw [List.foldl_cons]
    by_cases hki : (alookup k nk).isSome = true
    · have hstep : passStep nxt pnxt (nk, stapp, g0) (k, alts) = (nk, stapp, g0) := by
        unfold passStep
        rw [if_pos hki]
      rw [hstep]
      exact ih (nk, stapp, g0) b h1 h2 (fun e he => h3 e (List.mem_cons_of_mem _ he))
    · have hnone : alookup k nk = none := Option.not_isSome_iff_eq_none.mp hki
      have hkb : k = b → alts = [] := fun hk => h3 (k, alts) (List.mem_cons_self _ _) hk
      cases hp : (processAlts nxt pnxt alts).2 with
      | some p =>
        have hkneb : k ≠ b := by
          intro hk
          rw [hkb hk] at hp
          exact Option.noConfusion (show (none : Option Nat) = some p from hp)
        have hstep : passStep nxt pnxt (nk, stapp, g0) (k, alts) =
            (nk ++ [(k, p)], stapp ++ [k],
             if (processAlts nxt pnxt alts).1.isEmpty then g0
             else g0 ++ [(k, (processAlts nxt pnxt alts).1)]) := by
          simp only [passStep, hnone, Option.isSome_none, Bool.false_eq_true, if_false, hp]
        rw [hstep]
        apply ih
        · rw [Rpni.alookup_append, h1]
          simp [alookup, hkneb]
        · intro e he hke
          by_cases hemp : (processAlts nxt pnxt alts).1.isEmpty = true
          · rw [if_pos hemp] at he
            exact h2 e he hke
          · rw [if_neg hemp] at he
            rcases List.mem_append.mp he with he | he
            · exact h2 e he hke
            · rw [List.mem_singleton.mp he] at hke
              exact absurd hke hkneb
        · exact fun e he => h3 e (List.mem_cons_of_mem _ he)
      | none =>
        have hstep : passStep nxt pnxt (nk, stapp, g0) (k, alts) =
            (nk, stapp,
             if (processAlts nxt pnxt alts).1.isEmpty then g0
             else g0 ++ [(k, (processAlts nxt pnxt alts).1)]) := by
          simp only [passStep, hnone, Option.isSome_none, Bool.false_eq_true, if_false, hp]
        rw [hstep]
        apply ih
        · exact h1
        · intro e he hke
          by_cases hemp : (processAlts nxt pnxt alts).1.isEmpty = true
          · rw [if_pos hemp] at he
            exact h2 e he hke
          · rw [if_neg hemp] at he
            rcases List.mem_append.mp he with he | he
            · exact h2 e he hke
            · exfalso
              have hek : e.1 = k := by rw [List.mem_singleton.mp he]
              have hkb2 : k = b := by rw [← hek, hke]
              rw [hkb hkb2] at hemp
              exact hemp rfl
        · exact fun e he => h3 e (List.mem_cons_of_mem _ he)

/-- A key that starts non-nullable and has only empty `g_cur` entries stays
out of the nullable map for the whole loop. -/
theorem nullableLoop_pres_none :
    ∀ (fuel : Nat) (nk : NMap) (unproc : List Str) (gcur : GCur) (b : Str) (nkf : NMap),
    alookup b nk = none →
    (∀ e ∈ gcur, e.1 = b → e.2 = ([] : GAlts)) →
    nullableLoop fuel nk unproc gcur = some nkf →
    alookup b nkf = none := by
  intro fuel
  induction fuel with
  | zero =>
    intro nk unproc gcur b nkf h1 _ h3
    cases unproc with
    | nil =>
      have h3' : some nk = some nkf := h3
      rw [← Option.some.inj h3']
      exact h1
    | cons x rest => exact Option.noConfusion (show (none : Option NMap) = some nkf from h3)
  | succ f ih =>
    intro nk unproc gcur b nkf h1 h2 h3
    cases unproc with
    | nil =>
      have h3' : some nk = some nkf := h3
      rw [← Option.some.inj h3']
      exact h1
    | cons nxt rest =>
      have h3' : nullableLoop f (nullablePass nxt ((alookup nxt nk).getD 0) gcur nk).1
          (rest ++ (nullablePass nxt ((alookup nxt nk).getD 0) gcur nk).2.1)
          (nullablePass nxt ((alookup nxt nk).getD 0) gcur nk).2.2 = some nkf := h3
      rw [nullablePass_eq_foldl] at h3'
      obtain ⟨hp1, hp2⟩ := passFold_pres nxt ((alookup nxt nk).getD 0) gcur
        (nk, [], []) b h1 (fun e he => absurd he (List.not_mem_nil e)) h2
      exact ih _ _ _ b nkf hp1 hp2 h3'

/-- Entries of the nullable map are never overwritten by the loop. -/
theorem nullableLoop_pres_some :
    ∀ (fuel : Nat) (nk : NMap) (unproc : List Str) (gcur : GCur) (k : Str) (v : Nat)
      (nkf : NMap),
    alookup k nk = some v →
    nullableLoop fuel nk unproc gcur = some nkf →
    alookup k nkf = some v := by
  intro fuel
  induction fuel with
  | zero =>
    intro nk unproc gcur k v nkf h1 h3
    cases unproc with
    | nil =>
      have h3' : some nk = some nkf := h3
      rw [← Option.some.inj h3']
      exact h1
    | cons x rest => exact Option.noConfusion (show (none : Option NMap) = some nkf from h3)
  | succ f ih =>
    intro nk unproc gcur k v nkf h1 h3
    cases unproc with
    | nil =>
      have h3' : some nk = some nkf := h3
      rw [← Option.some.inj h3']
      exact h1
    | cons nxt rest =>
      have h3' : nullableLoop f (nullablePass nxt ((alookup nxt nk).getD 0) gcur nk).1
          (rest ++ (nullablePass nxt ((alookup nxt nk).getD 0) gcur nk).2.1)
          (nullablePass nxt ((alookup nxt nk).getD 0) gcur nk).2.2 = some nkf := h3
      rw [nullablePass_eq_foldl] at h3'
      obtain ⟨dn, dg, he, _, _⟩ := passFold_spec nxt ((alookup nxt nk).getD 0) gcur nk [] []
      rw [he] at h3'
      have h1' : alookup k (nk ++ dn) = some v := by
        rw [alookup_append_left k nk dn (by rw [h1]; rfl)]
        exact h1
      exact ih _ _ _ k v nkf h1' h3'

theorem alookup_nullableInit_none0 (g : Grammar) (k : Str) (h : alookup k g = none) :
    alookup k (nullableInit g) = none := by
  induction g with
  | nil => rfl
  | cons kv rest ih =>
    obtain ⟨a, b⟩ := kv
    rw [alookup] at h
    by_cases he : a = k
    · rw [if_pos he] at h
      exact Option.noConfusion h
    · rw [if_neg he] at h
      rw [nullableInit]
      simp only [List.filter_cons]
      by_cases hp : (b.any (fun alt => alt.isEmpty)) = true
      · rw [if_pos hp, List.map_cons, alookup, if_neg he]
        exact ih h
      · rw [if_neg hp]
        exact ih h

theorem alookup_nullableInit_some (g : Grammar) (hnd : (g.map Prod.fst).Nodup)
    (k : Str) (alts : List (List Str)) (hk : alookup k g = some alts) (he : [] ∈ alts) :
    alookup k (nullableInit g) = some (if k = emptySym then 1 else 0) := by
  induction g with
  | nil => exact Option.noConfusion hk
  | cons kv rest ih =>
    obtain ⟨a, b⟩ := kv
    rw [List.map_cons, List.nodup_cons] at hnd
    rw [alookup] at hk
    by_cases heq : a = k
    · rw [if_pos heq] at hk
      have hb : b = alts := Option.some.inj hk
      have hp : (b.any (fun alt => alt.isEmpty)) = true := by
        rw [hb]
        exact List.any_eq_true.mpr ⟨[], he, rfl⟩
      rw [nullableInit]
      simp only [List.filter_cons, hp, eq_self_iff_true, if_true, List.map_cons]
      rw [alookup, if_pos heq, heq]
    · rw [if_neg heq] at hk
      have ih' := ih hnd.2 hk
      rw [nullableInit]
      simp only [List.filter_cons]
      by_cases hp : (b.any (fun alt => alt.isEmpty)) = true
      · rw [if_pos hp, List.map_cons, alookup, if_neg heq]
        exact ih'
      · rw [if_neg hp]
        exact ih'

theorem alookup_nullableInit_none (g : Grammar) (hnd : (g.map Prod.fst).Nodup)
    (k : Str) (alts : List (List Str)) (hk : alookup k g = some alts) (he : [] ∉ alts) :
    alookup k (nullableInit g) = none := by
  induction g with
  | nil => exact Option.noConfusion hk
  | cons kv rest ih =>
    obtain ⟨a, b⟩ := kv
    rw [List.map_cons, List.nodup_cons] at hnd
    rw [alookup] at hk
    by_cases heq : a = k
    · rw [if_pos heq] at hk
      have hb : b = alts := Option.some.inj hk
      have hp : ¬ ((b.any (fun alt => alt.isEmpty)) = true) := by
        rw [hb]
        intro hc
        obtain ⟨x, hx, hxe⟩ := List.any_eq_true.mp hc
        rw [List.isEmpty_iff.mp hxe] at hx
        exact he hx
      rw [nullableInit]
      simp only [List.filter_cons]
      rw [if_neg hp]
      show alookup k (nullableInit rest) = none
      apply alookup_nullableInit_none0
      rw [← heq]
      exact (alookup_none_iff a rest).mpr hnd.1
    · rw [if_neg heq] at hk
      have ih' := ih hnd.2 hk
      rw [nullableInit]
      simp only [List.filter_cons]
      by_cases hp : (b.any (fun alt => alt.isEmpty)) = true
      · rw [if_pos hp, List.map_cons, alookup, if_neg heq]
        exact ih'
      · rw [if_neg hp]
        exact ih'

theorem gcur0_entry (g : Grammar) (hnd : (g.map Prod.fst).Nodup) (k : Str)
    (v : List (List Str)) (h : alookup k g = some v) :
    ∀ e ∈ nullableGCur0 g, e.1 = k →
      e.2 = (v.filter (fun alt => alt.all (fun t => is_nt t))).map
        (fun alt => (alt, (0 : Nat))) := by
  intro e he hek
  rw [nullableGCur0] at he
  obtain ⟨kv1, hkv1, hke1⟩ := List.mem_map.mp he
  rw [rem_terminals] at hkv1
  obtain ⟨e0, he0, hke0⟩ := List.mem_map.mp hkv1
  obtain ⟨a0, b0⟩ := e0
  subst hke1
  subst hke0
  have h1 : a0 = k := hek
  have h3 : alookup k g = some b0 := by
    rw [← h1]
    exact mem_nodup_alookup a0 b0 g he0 hnd
  have hv : v = b0 := Option.some.inj (h.symm.trans h3)
  show (b0.filter _).map _ = _
  rw [← hv]

theorem gcur0_entry_none (g : Grammar) (k : Str) (h : alookup k g = none) :
    ∀ e ∈ nullableGCur0 g, e.1 ≠ k := by
  intro e he hek
  have hm : k ∈ (nullableGCur0 g).map Prod.fst := by
    rw [← hek]
    exact List.mem_map_of_mem Prod.fst he
  rw [nullableGCur0_keys] at hm
  exact (alookup_none_iff k g).mp h hm

theorem cover_keys_nodup (g : Grammar) (start : Str) (syms : List Str) :
    (((augment_grammar_ex g start syms).1).map Prod.fst).Nodup := by
  rw [augment_fst]
  apply dictMerge_keys_nodup
  apply dictMerge_keys_nodup
  apply dictMerge_keys_nodup
  apply dictMerge_keys_nodup
  apply dictMerge_keys_nodup
  apply dictMerge_keys_nodup
  apply dictMerge_keys_nodup
  simp [add_start]

theorem is_nt_any_not_term (a : Str) : is_nt (Any_not_term a) = false := by
  rw [is_nt, Any_not_term]
  simp

/-- C4 counterexample: `nullable_ex` takes the penalty of the first
production whose right-hand side empties (first-wins with a `break`), not
the minimum over all such productions: on `c4g` it assigns A penalty 2
even though A's production `[<$>]` consists entirely of nullables with
summed penalty 1. -/
theorem C4_counterexample :
    nullable_ex c4g = some [(emptySym, 1), (['<', 'A', '>'], 2)] ∧
    alookup ['<', 'A', '>'] [(emptySym, 1), (['<', 'A', '>'], 2)] = some 2 ∧
    [emptySym] ∈ (alookup ['<', 'A', '>'] c4g).getD [] ∧
    alookup emptySym [(emptySym, 1), (['<', 'A', '>'], 2)] = some 1 ∧
    (2 : Nat) ≠ 1 := by
  refine ⟨by decide, by decide, by decide, by decide, by decide⟩

/-- C4 (amended): the parts of the nullability claim that hold: on every
covering grammar built by `augment_grammar_ex` over a plain base grammar,
`<$>` is nullable with penalty 1, and `<$.>` and `<$![a]>` (for every `a`)
are not nullable; the per-nonterminal penalty, however, is first-wins, not
the minimum (see the counterexample). -/
theorem C4_nullable_amended (g : Grammar) (start : Str) (syms : List Str)
    (hplain : ∀ kv ∈ g, plainB kv.1 = true) (nk : NMap)
    (h : nullable_ex (augment_grammar_ex g start syms).1 = some nk) :
    alookup emptySym nk = some 1 ∧ alookup Any_one nk = none ∧
    ∀ a, alookup (Any_not a) nk = none := by
  have hnd := cover_keys_nodup g start syms
  rw [nullable_ex] at h
  refine ⟨?_, ?_, ?_⟩
  · have h0 : alookup emptySym
        (nullableInit (augment_grammar_ex g start syms).1) = some 1 := by
      have hh := alookup_nullableInit_some _ hnd emptySym [[]]
        (cover_lookup_empty g start syms) (List.mem_singleton.mpr rfl)
      simpa using hh
    exact nullableLoop_pres_some _ _ _ _ emptySym 1 nk h0 h
  · have h0 : alookup Any_one
        (nullableInit (augment_grammar_ex g start syms).1) = none :=
      alookup_nullableInit_none _ hnd Any_one [[Any_term]]
        (cover_lookup_any_one g start syms) (by decide)
    have h1 : ∀ e ∈ nullableGCur0 (augment_grammar_ex g start syms).1,
        e.1 = Any_one → e.2 = ([] : GAlts) := by
      intro e he hek
      have h2 := gcur0_entry _ hnd Any_one [[Any_term]]
        (cover_lookup_any_one g start syms) e he hek
      rw [h2]
      decide
    exact nullableLoop_pres_none _ _ _ _ Any_one nk h0 h1 h
  · intro a
    cases hl : alookup (Any_not a) (augment_grammar_ex g start syms).1 with
    | none =>
      have h0 := alookup_nullableInit_none0 _ (Any_not a) hl
      have h1 : ∀ e ∈ nullableGCur0 (augment_grammar_ex g start syms).1,
          e.1 = Any_not a → e.2 = ([] : GAlts) := by
        intro e he hek
        exact absurd hek (gcur0_entry_none _ (Any_not a) hl e he)
      exact nullableLoop_pres_none _ _ _ _ (Any_not a) nk h0 h1 h
    | some v =>
      have hs : a ∈ syms := by
        have hx := cover_keys g start syms (Any_not a) (by rw [hl]; rfl)
        rcases hx with hx | hx | hx | hx | hx | ⟨b, _, hx⟩ | ⟨b, hb, hx⟩
        · exact absurd hx (any_not_ne_cstart a start)
        · exfalso
          obtain ⟨kv, hkv, hke⟩ := List.mem_map.mp hx
          exact absurd hke (plain_ne_any_not kv.1 (hplain kv hkv) a)
        · exact absurd hx (any_not_ne_any_one a)
        · exact absurd hx (any_not_ne_any_plus a)
        · exact absurd hx (any_not_ne_empty a)
        · exact absurd hx.symm (this_sym_ne_any_not b a)
        · rw [any_not_inj a b hx]
          exact hb
      have h0 : alookup (Any_not a)
          (nullableInit (augment_grammar_ex g start syms).1) = none :=
        alookup_nullableInit_none _ hnd (Any_not a) [[Any_not_term a]]
          (cover_lookup_any_not g start syms a hs) (by simp)
      have h1 : ∀ e ∈ nullableGCur0 (augment_grammar_ex g start syms).1,
          e.1 = Any_not a → e.2 = ([] : GAlts) := by
        intro e he hek
        have h2 := gcur0_entry _ hnd (Any_not a) [[Any_not_term a]]
          (cover_lookup_any_not g start syms a hs) e he hek
        rw [h2]
        simp [List.filter_cons, is_nt_any_not_term]
      exact nullableLoop_pres_none _ _ _ _ (Any_not a) nk h0 h1 h

theorem C4_nullable_amended_witness :
    alookup emptySym c4nk = some 1 ∧ alookup Any_one c4nk = none ∧
    alookup (Any_not ['b']) c4nk = none := by
  have hmain := C4_nullable_amended c2g c2start [['a']] (by decide) c4nk (by decide)
  exact ⟨hmain.1, hmain.2.1, hmain.2.2 ['b']⟩

theorem any_not_concat (a : Str) :
    Any_not a = (('<' :: '$' :: '!' :: '[' :: a) ++ [']']) ++ ['>'] := by
  simp [Any_not]

theorem is_nt_any_not (a : Str) : is_nt (Any_not a) = true := by
  rw [is_nt]
  have h1 : (Any_not a).head? = some '<' := rfl
  have h2 : (Any_not a).getLast? = some '>' := by
    rw [any_not_concat]
    exact List.getLast?_concat _
  rw [h1, h2]
  rfl

theorem basePenalty_empty : basePenalty emptySym = 1 := rfl

theorem basePenalty_any_one : basePenalty Any_one = 1 := rfl

theorem basePenalty_any_not (a : Str) : basePenalty (Any_not a) = 1 := by
  have hp : (['<', '$', '!', '['] : Str).isPrefixOf (Any_not a) = true :=
    List.isPrefixOf_iff_prefix.mpr ⟨a ++ [']', '>'], rfl⟩
  rw [basePenalty, if_neg (any_not_ne_empty a), if_neg (any_not_ne_any_one a), if_pos hp]

theorem basePenalty_this_sym (a : Str) : basePenalty (This_sym a) = 0 := by
  rw [basePenalty, if_neg (this_sym_ne_empty a), if_neg (this_sym_ne_any_one a)]
  have hp : (['<', '$', '!', '['] : Str).isPrefixOf (This_sym a) = false := by
    cases hh : (['<', '$', '!', '['] : Str).isPrefixOf (This_sym a)
    · rfl
    · exfalso
      obtain ⟨r, hr⟩ := List.isPrefixOf_iff_prefix.mp hh
      rw [This_sym] at hr
      simp at hr
  rw [hp]
  rfl

theorem basePenalty_cstart (st : Str) : basePenalty (corrupt_start st) = 0 := by
  rw [basePenalty, if_neg (fun h => empty_ne_cstart st h.symm),
    if_neg (fun h => any_one_ne_cstart st h.symm)]
  have hp : (['<', '$', '!', '['] : Str).isPrefixOf (corrupt_start st) = false := rfl
  rw [hp]
  rfl

theorem basePenalty_plain (k : Str) (hp : plainB k = true) : basePenalty k = 0 := by
  rw [basePenalty, if_neg (plain_ne_empty k hp), if_neg (plain_ne_any_one k hp)]
  have hpre : List.isPrefixOf ['<', '$'] k = false := by
    rw [plainB] at hp
    have h := (Bool.and_eq_true _ _ |>.mp ((Bool.and_eq_true _ _ |>.mp hp).1)).2
    cases hh : List.isPrefixOf ['<', '$'] k
    · rfl
    · rw [hh] at h
      exact Bool.noConfusion h
  have h2 : (['<', '$', '!', '['] : Str).isPrefixOf k = false := by
    cases hh : (['<', '$', '!', '['] : Str).isPrefixOf k
    · rfl
    · rw [prefix_trans_bang k hh] at hpre
      exact Bool.noConfusion hpre
  rw [h2]
  rfl

theorem basePenalty_single (a : Str) (h : a.length = 1) : basePenalty a = 0 := by
  have h1 : a ≠ emptySym := by
    intro he
    rw [he] at h
    simp [emptySym] at h
  have h2 : a ≠ Any_one := by
    intro he
    rw [he] at h
    simp [Any_one] at h
  rw [basePenalty, if_neg h1, if_neg h2]
  have h3 : (['<', '$', '!', '['] : Str).isPrefixOf a = false := by
    cases hh : (['<', '$', '!', '['] : Str).isPrefixOf a
    · rfl
    · exfalso
      have hle := (List.isPrefixOf_iff_prefix.mp hh).length_le
      rw [h] at hle
      simp at hle
  rw [h3]
  rfl

theorem len1_not_nt (a : Str) (h : a.length = 1) : is_nt a = false := by
  match a, h with
  | [c], _ =>
    rw [is_nt]
    by_cases hc : c = '<'
    · subst hc
      simp [List.getLast?]
    · simp [List.head?, hc]

theorem single_ne_any_term (c : Char) : ¬ (([c] : Str) = Any_term) := by
  simp [Any_term]

theorem termMatch_single (c : Char) :
    termMatch [c] (PTree.node [c] PForest.nil) = true := by
  unfold termMatch
  rw [decide_eq_false (single_ne_any_term c)]
  simp

theorem termMatch_single_inv (c : Char) (key : Str) (ch : PForest)
    (h : termMatch [c] (PTree.node key ch) = true) : key = [c] ∧ ch = PForest.nil := by
  unfold termMatch at h
  rw [decide_eq_false (single_ne_any_term c)] at h
  cases ch with
  | cons t ts => simp at h
  | nil =>
    refine ⟨?_, rfl⟩
    simpa using h

/-- Every valid `<$.+>` subtree costs at least one penalty point: both of
its alternatives contain a `<$.>` child, whose base penalty is 1. -/
theorem any_plus_pen (g : Grammar) (start : Str) (syms : List Str)
    (t : PTree) (h : TreeOK (augment_grammar_ex g start syms).1 t)
    (hn : nameT t = Any_plus) : 1 ≤ penT t := by
  obtain ⟨k, ch⟩ := t
  have hk : k = Any_plus := hn
  subst hk
  cases h with
  | node _k _ch alts' alt' hl halt' hfok =>
    rw [cover_lookup_any_plus g start syms] at hl
    have he := Option.some.inj hl
    rw [← he] at halt'
    rcases List.mem_cons.mp halt' with h1 | h1
    · subst h1
      cases hfok with
      | consNT _s t1 _ss ts1 hnt hname htok hfok1 =>
        obtain ⟨k1, ch1⟩ := t1
        have hk1 : k1 = Any_one := hname
        simp only [penT, penF, hk1, basePenalty_any_one]
        omega
      | consTerm _s t1 _ss ts1 hnf htm hfok1 =>
        exfalso
        have hone : is_nt Any_one = true := by decide
        rw [hone] at hnf
        exact Bool.noConfusion hnf
    · rw [List.mem_singleton] at h1
      subst h1
      cases hfok with
      | consNT _s t1 _ss ts1 hnt hname htok hfok1 =>
        cases hfok1 with
        | consNT _s2 t2 _ss2 ts2 hnt2 hname2 htok2 hfok2 =>
          obtain ⟨k2, ch2⟩ := t2
          have hk2 : k2 = Any_one := hname2
          simp only [penT, penF, hk2, basePenalty_any_one]
          omega
        | consTerm _s2 t2 _ss2 ts2 hnf2 htm2 hfok2 =>
          exfalso
          have hone : is_nt Any_one = true := by decide
          rw [hone] at hnf2
          exact Bool.noConfusion hnf2
      | consTerm _s t1 _ss ts1 hnf htm hfok1 =>
        exfalso
        have hplus : is_nt Any_plus = true := by decide
        rw [hplus] at hnf
        exact Bool.noConfusion hnf

theorem this_sym_key_mem (g : Grammar) (start : Str) (syms : List Str)
    (hplain : ∀ kv ∈ g, plainB kv.1 = true) (a : Str)
    (h : (alookup (This_sym a) (augment_grammar_ex g start syms).1).isSome = true) :
    a ∈ syms := by
  have hx := cover_keys g start syms (This_sym a) h
  rcases hx with hx | hx | hx | hx | hx | ⟨b, hb, hx⟩ | ⟨b, _, hx⟩
  · exact absurd hx (this_sym_ne_cstart a start)
  · exfalso
    obtain ⟨kv, hkv, hke⟩ := List.mem_map.mp hx
    exact absurd hke (plain_ne_this_sym kv.1 (hplain kv hkv) a)
  · exact absurd hx (this_sym_ne_any_one a)
  · exact absurd hx (this_sym_ne_any_plus a)
  · exact absurd hx (this_sym_ne_empty a)
  · rw [this_sym_inj a b hx]
    exact hb
  · exact absurd hx (this_sym_ne_any_not a b)

/-- Zero-penalty faithfulness: a covering parse tree of total penalty 0
projects to exactly its own yield (no correction fired anywhere). -/
theorem zeroPen_main (g : Grammar) (start : Str) (syms : List Str)
    (hnd : (g.map Prod.fst).Nodup)
    (hplain : ∀ kv ∈ g, plainB kv.1 = true)
    (hrhs : ∀ kv ∈ g, ∀ alt ∈ kv.2, ∀ s ∈ alt, is_nt s = true → plainB s = true)
    (hsyms : ∀ a ∈ syms, a.length = 1) :
    ∀ n : Nat,
      (∀ t : PTree, sizeT t ≤ n → ∀ k children, t = PTree.node k children →
        (plainB k = true ∨ ∃ a, k = This_sym a) →
        TreeOK (augment_grammar_ex g start syms).1 t → penT t = 0 →
        projectT t = yieldT t) ∧
      (∀ ts : PForest, ∀ ss alt : List Str, sizeF ts ≤ n →
        ss = alt.map translate_terminal →
        (∀ s ∈ alt, is_nt s = true → plainB s = true) →
        ForestOK (augment_grammar_ex g start syms).1 ss ts → penF ts = 0 →
        projectF ts = yieldF ts) := by
  intro n
  induction n using Nat.strong_induction_on with
  | _ n IH =>
  constructor
  · intro t hsize k children hteq hkind htok hpen
    subst hteq
    rcases hkind with hp | ⟨a, hka⟩
    · cases htok with
      | node _k _ch alts' alt' hl halt' hfok =>
        cases hg : alookup k g with
        | none =>
          exfalso
          rw [cover_lookup_plain_none g start syms k hplain hp
            (plain_ne_cstart k hp start) hg] at hl
          exact Option.noConfusion hl
        | some alts =>
          rw [cover_lookup_plain_some g start syms k alts hnd hp hg] at hl
          have he := Option.some.inj hl
          rw [← he] at halt'
          obtain ⟨alt, halt, hfa⟩ := List.mem_map.mp halt'
          have hlt : sizeF children < n := by
            have hs := hsize
            simp only [sizeT] at hs
            omega
          have hsym : ∀ s ∈ alt, is_nt s = true → plainB s = true :=
            hrhs (k, alts) (alookup_mem k g alts hg) alt halt
          have hfok2 : ForestOK (augment_grammar_ex g start syms).1
              (alt.map translate_terminal) children := by
            rw [hfa]
            exact hfok
          have hpf : penF children = 0 := by
            simp only [penT] at hpen
            omega
          have hzf := (IH (sizeF children) hlt).2 children _ alt le_rfl rfl hsym hfok2 hpf
          rw [projectT_plain k children hp]
          have hy : yieldT (PTree.node k children) = yieldF children := by
            simp only [yieldT, plainB_is_nt k hp, eq_self_iff_true, if_true]
          rw [hy]
          exact hzf
    · subst hka
      cases htok with
      | node _k _ch alts' alt' hl halt' hfok =>
        have hmem : a ∈ syms := this_sym_key_mem g start syms hplain a (by rw [hl]; rfl)
        have ha1 : a.length = 1 := hsyms a hmem
        obtain ⟨c, hc⟩ : ∃ c, a = [c] := by
          cases a with
          | nil => simp at ha1
          | cons c t =>
            cases t with
            | nil => exact ⟨c, rfl⟩
            | cons d t2 => simp at ha1
        subst hc
        have hant : is_nt [c] = false := len1_not_nt [c] rfl
        rw [cover_lookup_this_sym g start syms [c] hmem] at hl
        have he := Option.some.inj hl
        rw [← he] at halt'
        have hpf : penF children = 0 := by
          simp only [penT] at hpen
          omega
        rcases List.mem_cons.mp halt' with h1 | h1
        · subst h1
          cases hfok with
          | consNT _s t1 _ss ts1 hnt hname htok1 hfok1 =>
            exfalso
            rw [hant] at hnt
            exact Bool.noConfusion hnt
          | consTerm _s t1 _ss ts1 hnf htm hfok1 =>
            cases hfok1
            obtain ⟨k1, ch1⟩ := t1
            obtain ⟨hk1, hch1⟩ := termMatch_single_inv c k1 ch1 htm
            subst hk1
            subst hch1
            rw [projectT_this_sym]
            simp only [yieldT, yieldF, is_nt_this_sym, eq_self_iff_true, if_true,
              hant, Bool.false_eq_true, if_false, List.append_nil]
        · rcases List.mem_cons.mp h1 with h2 | h2
          · subst h2
            exfalso
            cases hfok with
            | consNT _s t1 _ss ts1 hnt hname htok1 hfok1 =>
              have hge := any_plus_pen g start syms t1 htok1 hname
              simp only [penF] at hpf
              omega
            | consTerm _s t1 _ss ts1 hnf htm hfok1 =>
              have hplus : is_nt Any_plus = true := by decide
              rw [hplus] at hnf
              exact Bool.noConfusion hnf
          · rcases List.mem_cons.mp h2 with h3 | h3
            · subst h3
              exfalso
              cases hfok with
              | consNT _s t1 _ss ts1 hnt hname htok1 hfok1 =>
                obtain ⟨k1, ch1⟩ := t1
                have hk1 : k1 = emptySym := hname
                simp only [penF, penT, hk1, basePenalty_empty] at hpf
                omega
              | consTerm _s t1 _ss ts1 hnf htm hfok1 =>
                have hemp : is_nt emptySym = true := by decide
                rw [hemp] at hnf
                exact Bool.noConfusion hnf
            · rw [List.mem_singleton] at h3
              subst h3
              exfalso
              cases hfok with
              | consNT _s t1 _ss ts1 hnt hname htok1 hfok1 =>
                obtain ⟨k1, ch1⟩ := t1
                have hk1 : k1 = Any_not [c] := hname
                simp only [penF, penT, hk1, basePenalty_any_not] at hpf
                omega
              | consTerm _s t1 _ss ts1 hnf htm hfok1 =>
                rw [is_nt_any_not [c]] at hnf
                exact Bool.noConfusion hnf
  · intro ts ss alt hsize heq hsym hfok hpen
    cases hfok with
    | nil =>
      have halt : alt = [] := by
        cases alt with
        | nil => rfl
        | cons a r => simp at heq
      subst halt
      simp only [projectF, yieldF]
    | consNT s' t' ss' ts' hnt hname htok hfok' =>
      cases alt with
      | nil => simp at heq
      | cons s rest =>
        simp only [List.map] at heq
        obtain ⟨hs', hss'⟩ := List.cons.inj heq
        obtain ⟨k', ch'⟩ := t'
        have hlt1 : sizeT (PTree.node k' ch') < n := by
          have hsz := hsize
          simp only [sizeF] at hsz
          omega
        have hlt2 : sizeF ts' < n := by
          have hsz := hsize
          simp only [sizeF] at hsz
          omega
        have hpent : penT (PTree.node k' ch') = 0 ∧ penF ts' = 0 := by
          simp only [penF] at hpen
          omega
        have hrest := (IH (sizeF ts') hlt2).2 ts' ss' rest le_rfl hss'
          (fun s2 hs2 => hsym s2 (List.mem_cons_of_mem _ hs2)) hfok' hpent.2
        by_cases hs : is_nt s = true
        · have hk' : k' = s := by
            have hh : nameT (PTree.node k' ch') = s' := hname
            rw [nameT] at hh
            rw [hh, hs', translate_terminal, if_pos hs]
          have hps : plainB s = true := hsym s (List.mem_cons_self _ _) hs
          have hzt := (IH (sizeT (PTree.node k' ch')) hlt1).1 _ le_rfl k' ch' rfl
            (Or.inl (by rw [hk']; exact hps)) htok hpent.1
          simp only [projectF, yieldF, hzt, hrest]
        · have hk' : k' = This_sym s := by
            have hh : nameT (PTree.node k' ch') = s' := hname
            rw [nameT] at hh
            rw [hh, hs', translate_terminal, if_neg hs]
          have hzt := (IH (sizeT (PTree.node k' ch')) hlt1).1 _ le_rfl k' ch' rfl
            (Or.inr ⟨s, hk'⟩) htok hpent.1
          simp only [projectF, yieldF, hzt, hrest]
    | consTerm s' t' ss' ts' hnf htm hfok' =>
      cases alt with
      | nil => simp at heq
      | cons s rest =>
        exfalso
        simp only [List.map] at heq
        obtain ⟨hs', hss'⟩ := List.cons.inj heq
        rw [hs'] at hnf
        by_cases hs : is_nt s = true
        · rw [translate_terminal, if_pos hs] at hnf
          rw [hnf] at hs
          exact Bool.noConfusion hs
        · rw [translate_terminal, if_neg hs, is_nt_this_sym] at hnf
          exact Bool.noConfusion hnf

/-- Every derivation of the base grammar is matched by a penalty-free
covering parse tree with the same yield (no correction needed). -/
theorem exist_main (g : Grammar) (start : Str) (syms : List Str)
    (hnd : (g.map Prod.fst).Nodup)
    (_hplain : ∀ kv ∈ g, plainB kv.1 = true)
    (hrhs : ∀ kv ∈ g, ∀ alt ∈ kv.2, ∀ s ∈ alt, is_nt s = true → plainB s = true)
    (hterm : ∀ kv ∈ g, ∀ alt ∈ kv.2, ∀ s ∈ alt, is_nt s = false → s ∈ syms)
    (hsyms : ∀ a ∈ syms, a.length = 1) (A : Str) (w : Str) (hd : Derives g A w) :
    plainB A = true →
    ∃ ch, TreeOK (augment_grammar_ex g start syms).1 (PTree.node A ch) ∧
      yieldT (PTree.node A ch) = w ∧ penT (PTree.node A ch) = 0 := by
  refine @Derives.rec g
    (fun A w _ => plainB A = true →
      ∃ ch, TreeOK (augment_grammar_ex g start syms).1 (PTree.node A ch) ∧
        yieldT (PTree.node A ch) = w ∧ penT (PTree.node A ch) = 0)
    (fun ss w _ =>
      (∀ s ∈ ss, is_nt s = true → plainB s = true) →
      (∀ s ∈ ss, is_nt s = false → s ∈ syms) →
      ∃ ts, ForestOK (augment_grammar_ex g start syms).1 (ss.map translate_terminal) ts ∧
        yieldF ts = w ∧ penF ts = 0)
    ?_ ?_ ?_ ?_ A w hd
  · intro A alts alt w hl halt hseq IH hpA
    have hkv : (A, alts) ∈ g := alookup_mem A g alts hl
    obtain ⟨ts, hfok, hy, hpen⟩ := IH (hrhs (A, alts) hkv alt halt)
      (hterm (A, alts) hkv alt halt)
    refine ⟨ts, ?_, ?_, ?_⟩
    · exact TreeOK.node A ts (alts.map (fun a2 => a2.map translate_terminal))
        (alt.map translate_terminal)
        (cover_lookup_plain_some g start syms A alts hnd hpA hl)
        (List.mem_map_of_mem _ halt) hfok
    · have hy2 : yieldT (PTree.node A ts) = yieldF ts := by
        simp only [yieldT, plainB_is_nt A hpA, eq_self_iff_true, if_true]
      rw [hy2]
      exact hy
    · have hp2 : penT (PTree.node A ts) = basePenalty A + penF ts := rfl
      rw [hp2, basePenalty_plain A hpA, hpen]
  · intro _ _
    exact ⟨PForest.nil, ForestOK.nil, rfl, rfl⟩
  · intro s ss w hnt hseq IH h1 h2
    have hmem : s ∈ syms := h2 s (List.mem_cons_self _ _) hnt
    have ha1 : s.length = 1 := hsyms s hmem
    obtain ⟨c, hc⟩ : ∃ c, s = [c] := by
      cases s with
      | nil => simp at ha1
      | cons c t =>
        cases t with
        | nil => exact ⟨c, rfl⟩
        | cons d t2 => simp at ha1
    obtain ⟨ts, hfok, hy, hpen⟩ := IH
      (fun s2 hs2 => h1 s2 (List.mem_cons_of_mem _ hs2))
      (fun s2 hs2 => h2 s2 (List.mem_cons_of_mem _ hs2))
    have hleaf : TreeOK (augment_grammar_ex g start syms).1
        (PTree.node (This_sym s) (PForest.cons (PTree.node s PForest.nil) PForest.nil)) := by
      refine TreeOK.node (This_sym s) _ [[s], [Any_plus, s], [emptySym], [Any_not s]] [s]
        (cover_lookup_this_sym g start syms s hmem) (List.mem_cons_self _ _) ?_
      refine ForestOK.consTerm s (PTree.node s PForest.nil) [] PForest.nil hnt ?_ ForestOK.nil
      rw [hc]
      exact termMatch_single c
    refine ⟨PForest.cons (PTree.node (This_sym s)
      (PForest.cons (PTree.node s PForest.nil) PForest.nil)) ts, ?_, ?_, ?_⟩
    · have hts : translate_terminal s = This_sym s := by
        rw [translate_terminal, if_neg (by simp [hnt])]
      show ForestOK (augment_grammar_ex g start syms).1
        (translate_terminal s :: ss.map translate_terminal) _
      rw [hts]
      exact ForestOK.consNT (This_sym s) _ (ss.map translate_terminal) ts
        (is_nt_this_sym s) rfl hleaf hfok
    · have hyc : yieldT (PTree.node (This_sym s)
          (PForest.cons (PTree.node s PForest.nil) PForest.nil)) = s := by
        simp only [yieldT, yieldF, is_nt_this_sym, eq_self_iff_true, if_true,
          hnt, Bool.false_eq_true, if_false, List.append_nil]
      show yieldT _ ++ yieldF ts = s ++ w
      rw [hyc, hy]
    · have hpc : penT (PTree.node (This_sym s)
          (PForest.cons (PTree.node s PForest.nil) PForest.nil)) = 0 := by
        simp [penT, penF, basePenalty_this_sym, basePenalty_single s ha1]
      show penT _ + penF ts = 0
      rw [hpc, hpen]
  · intro s v ss w hnt hd2 hseq IH1 IH2 h1 h2
    have hps : plainB s = true := h1 s (List.mem_cons_self _ _) hnt
    obtain ⟨ch, htok, hy1, hp1⟩ := IH1 hps
    obtain ⟨ts, hfok, hy2, hp2⟩ := IH2
      (fun s2 hs2 => h1 s2 (List.mem_cons_of_mem _ hs2))
      (fun s2 hs2 => h2 s2 (List.mem_cons_of_mem _ hs2))
    refine ⟨PForest.cons (PTree.node s ch) ts, ?_, ?_, ?_⟩
    · have hts : translate_terminal s = s := by
        rw [translate_terminal, if_pos hnt]
      show ForestOK (augment_grammar_ex g start syms).1
        (translate_terminal s :: ss.map translate_terminal) _
      rw [hts]
      exact ForestOK.consNT s _ (ss.map translate_terminal) ts hnt rfl htok hfok
    · show yieldT _ ++ yieldF ts = v ++ w
      rw [hy1, hy2]
    · show penT _ + penF ts = 0
      rw [hp1, hp2]

/-- C3: idempotence of repair on the parse-forest level: when the base
grammar already derives the input `b`, the covering grammar has a parse of
`b` with total penalty 0 (so the engine's minimum-penalty start state has
penalty 0), and every penalty-0 covering parse of `b` projects back to `b`
itself (the repair returns the input unchanged). -/
theorem C3_idempotence (g : Grammar) (start : Str) (syms : List Str)
    (hnd : (g.map Prod.fst).Nodup)
    (hplain : ∀ kv ∈ g, plainB kv.1 = true)
    (hrhs : ∀ kv ∈ g, ∀ alt ∈ kv.2, ∀ s ∈ alt, is_nt s = true → plainB s = true)
    (hterm : ∀ kv ∈ g, ∀ alt ∈ kv.2, ∀ s ∈ alt, is_nt s = false → s ∈ syms)
    (hsyms : ∀ a ∈ syms, a.length = 1)
    (hstart : plainB start = true) (b : Str) (hb : Derives g start b) :
    (∃ children, TreeOK (augment_grammar_ex g start syms).1
        (PTree.node (corrupt_start start) children) ∧
      yieldT (PTree.node (corrupt_start start) children) = b ∧
      penT (PTree.node (corrupt_start start) children) = 0) ∧
    (∀ children, TreeOK (augment_grammar_ex g start syms).1
        (PTree.node (corrupt_start start) children) →
      yieldT (PTree.node (corrupt_start start) children) = b →
      penT (PTree.node (corrupt_start start) children) = 0 →
      projectT (PTree.node (corrupt_start start) children) = b) := by
  constructor
  · obtain ⟨ch, htok, hy, hp⟩ := exist_main g start syms hnd hplain hrhs hterm hsyms
      start b hb hstart
    refine ⟨PForest.cons (PTree.node start ch) PForest.nil, ?_, ?_, ?_⟩
    · refine TreeOK.node (corrupt_start start) _ [[start], [start, Any_plus]] [start]
        (cover_lookup_cstart g start syms hplain) (List.mem_cons_self _ _) ?_
      exact ForestOK.consNT start _ [] PForest.nil (plainB_is_nt start hstart) rfl htok
        ForestOK.nil
    · have h1 : yieldT (PTree.node (corrupt_start start)
          (PForest.cons (PTree.node start ch) PForest.nil)) =
          yieldF (PForest.cons (PTree.node start ch) PForest.nil) := by
        simp only [yieldT, is_nt_cstart, eq_self_iff_true, if_true]
      rw [h1]
      simp only [yieldF, List.append_nil]
      exact hy
    · have h1 : penT (PTree.node (corrupt_start start)
          (PForest.cons (PTree.node start ch) PForest.nil)) =
          basePenalty (corrupt_start start) + (penT (PTree.node start ch) + 0) := rfl
      rw [h1, basePenalty_cstart, hp]
  · intro children htok hy hp
    cases htok with
    | node _k _ch alts' alt' hl halt' hfok =>
      rw [cover_lookup_cstart g start syms hplain] at hl
      have he := Option.some.inj hl
      rw [← he] at halt'
      rcases List.mem_cons.mp halt' with h1 | h1
      · subst h1
        cases hfok with
        | consNT _s t1 _ss ts1 hnt hname htok1 hfok1 =>
          cases hfok1
          obtain ⟨k1, ch1⟩ := t1
          have hk1 : k1 = start := hname
          have hp1 : penT (PTree.node k1 ch1) = 0 := by
            have hpe : penT (PTree.node (corrupt_start start)
                (PForest.cons (PTree.node k1 ch1) PForest.nil)) =
                basePenalty (corrupt_start start) + (penT (PTree.node k1 ch1) + 0) := rfl
            rw [hpe, basePenalty_cstart] at hp
            omega
          have hzt := (zeroPen_main g start syms hnd hplain hrhs hsyms
              (sizeT (PTree.node k1 ch1))).1 _ le_rfl k1 ch1 rfl
            (Or.inl (by rw [hk1]; exact hstart)) htok1 hp1
          have hy1 : yieldT (PTree.node (corrupt_start start)
              (PForest.cons (PTree.node k1 ch1) PForest.nil)) =
              yieldF (PForest.cons (PTree.node k1 ch1) PForest.nil) := by
            simp only [yieldT, is_nt_cstart, eq_self_iff_true, if_true]
          rw [hy1] at hy
          simp only [yieldF, List.append_nil] at hy
          rw [projectT_cstart]
          simp only [projectF, List.append_nil]
          rw [hzt]
          exact hy
        | consTerm _s t1 _ss ts1 hnf htm hfok1 =>
          exfalso
          rw [plainB_is_nt start hstart] at hnf
          exact Bool.noConfusion hnf
      · rw [List.mem_singleton] at h1
        subst h1
        exfalso
        cases hfok with
        | consNT _s t1 _ss ts1 hnt hname htok1 hfok1 =>
          cases hfok1 with
          | consNT _s2 t2 _ss2 ts2 hnt2 hname2 htok2 hfok2 =>
            cases hfok2
            have hge := any_plus_pen g start syms t2 htok2 hname2
            have hpe : penT (PTree.node (corrupt_start start)
                (PForest.cons t1 (PForest.cons t2 PForest.nil))) =
                basePenalty (corrupt_start start) + (penT t1 + (penT t2 + 0)) := rfl
            rw [hpe, basePenalty_cstart] at hp
            omega
          | consTerm _s2 t2 _ss2 ts2 hnf2 htm2 hfok2 =>
            have hplus : is_nt Any_plus = true := by decide
            rw [hplus] at hnf2
            exact Bool.noConfusion hnf2
        | consTerm _s t1 _ss ts1 hnf htm hfok1 =>
          rw [plainB_is_nt start hstart] at hnf
          exact Bool.noConfusion hnf

theorem C3_idempotence_witness :
    (∃ children, TreeOK (augment_grammar_ex c2g c2start [['a']]).1
        (PTree.node (corrupt_start c2start) children) ∧
      yieldT (PTree.node (corrupt_start c2start) children) = [] ∧
      penT (PTree.node (corrupt_start c2start) children) = 0) ∧
    projectT (PTree.node (corrupt_start c2start) c2forest) = [] := by
  have hb : Derives c2g c2start [] :=
    Derives.mk c2start [[]] [] [] (by decide) (by decide) DerivesSeq.nil
  have hmain := C3_idempotence c2g c2start [['a']] (by decide) (by decide) (by decide)
    (by decide) (by decide) (by decide) [] hb
  refine ⟨hmain.1, ?_⟩
  have hchild : TreeOK (augment_grammar_ex c2g c2start [['a']]).1 c2child :=
    TreeOK.node c2start PForest.nil [[]] [] (by decide) (by decide) ForestOK.nil
  have hroot : TreeOK (augment_grammar_ex c2g c2start [['a']]).1
      (PTree.node (corrupt_start c2start) c2forest) :=
    TreeOK.node (corrupt_start c2start) c2forest [[c2start], [c2start, Any_plus]] [c2start]
      (by decide) (by decide)
      (ForestOK.consNT c2start c2child [] PForest.nil (by decide) rfl hchild ForestOK.nil)
  exact hmain.2 c2forest hroot (by decide) (by decide)

end EcRuntime
